import Mathlib

/-!
Verification of the agentic-qa-service tool-orchestration core.

This file shallowly embeds the data model and the operations of the
repository (src/cache.py, src/policy.py, src/tools/base.py,
src/tools/calculator.py, src/agent.py) as executable Lean definitions and
proves the specified properties about them.

Modelling conventions:
  - Python values that flow through the cache and through tool arguments
    are modelled by the JSON-like type JVal (floats are modelled as exact
    rationals; the repository only passes strings and small integers).
  - Wall-clock time is an explicit natural-number parameter.
  - Python exceptions are modelled with Except; a function that can never
    raise is given a non-Except return type only when every Python
    exception path inside it is caught (as in BaseTool.execute).
-/

namespace AQA

/-- JSON-like values, the payloads moved through caches and tool results.
Dictionaries are represented by association lists; a canonical dictionary
has strictly key-sorted entries, mirroring json.dumps with sort_keys. -/
inductive JVal where
  | null : JVal
  | bool : Bool → JVal
  | int : Int → JVal
  | str : List Char → JVal
  | float : Rat → JVal
  | arr : List JVal → JVal
  | obj : List (List Char × JVal) → JVal

mutual

/-- Decidable equality on JSON-like values, written by hand because the
nested inductive cannot derive it. -/
def decEqJ : (a b : JVal) → Decidable (a = b)
  | .null, .null => isTrue rfl
  | .bool x, .bool y =>
      if h : x = y then isTrue (by rw [h])
      else isFalse (fun hc => h (by injection hc))
  | .int x, .int y =>
      if h : x = y then isTrue (by rw [h])
      else isFalse (fun hc => h (by injection hc))
  | .str x, .str y =>
      if h : x = y then isTrue (by rw [h])
      else isFalse (fun hc => h (by injection hc))
  | .float x, .float y =>
      if h : x = y then isTrue (by rw [h])
      else isFalse (fun hc => h (by injection hc))
  | .arr l1, .arr l2 =>
      match decEqLJ l1 l2 with
      | isTrue h => isTrue (by rw [h])
      | isFalse h => isFalse (fun hc => h (by injection hc))
  | .obj l1, .obj l2 =>
      match decEqOJ l1 l2 with
      | isTrue h => isTrue (by rw [h])
      | isFalse h => isFalse (fun hc => h (by injection hc))
  | .null, .bool _ => isFalse (fun hc => JVal.noConfusion hc)
  | .null, .int _ => isFalse (fun hc => JVal.noConfusion hc)
  | .null, .str _ => isFalse (fun hc => JVal.noConfusion hc)
  | .null, .float _ => isFalse (fun hc => JVal.noConfusion hc)
  | .null, .arr _ => isFalse (fun hc => JVal.noConfusion hc)
  | .null, .obj _ => isFalse (fun hc => JVal.noConfusion hc)
  | .bool _, .null => isFalse (fun hc => JVal.noConfusion hc)
  | .bool _, .int _ => isFalse (fun hc => JVal.noConfusion hc)
  | .bool _, .str _ => isFalse (fun hc => JVal.noConfusion hc)
  | .bool _, .float _ => isFalse (fun hc => JVal.noConfusion hc)
  | .bool _, .arr _ => isFalse (fun hc => JVal.noConfusion hc)
  | .bool _, .obj _ => isFalse (fun hc => JVal.noConfusion hc)
  | .int _, .null => isFalse (fun hc => JVal.noConfusion hc)
  | .int _, .bool _ => isFalse (fun hc => JVal.noConfusion hc)
  | .int _, .str _ => isFalse (fun hc => JVal.noConfusion hc)
  | .int _, .float _ => isFalse (fun hc => JVal.noConfusion hc)
  | .int _, .arr _ => isFalse (fun hc => JVal.noConfusion hc)
  | .int _, .obj _ => isFalse (fun hc => JVal.noConfusion hc)
  | .str _, .null => isFalse (fun hc => JVal.noConfusion hc)
  | .str _, .bool _ => isFalse (fun hc => JVal.noConfusion hc)
  | .str _, .int _ => isFalse (fun hc => JVal.noConfusion hc)
  | .str _, .float _ => isFalse (fun hc => JVal.noConfusion hc)
  | .str _, .arr _ => isFalse (fun hc => JVal.noConfusion hc)
  | .str _, .obj _ => isFalse (fun hc => JVal.noConfusion hc)
  | .float _, .null => isFalse (fun hc => JVal.noConfusion hc)
  | .float _, .bool _ => isFalse (fun hc => JVal.noConfusion hc)
  | .float _, .int _ => isFalse (fun hc => JVal.noConfusion hc)
  | .float _, .str _ => isFalse (fun hc => JVal.noConfusion hc)
  | .float _, .arr _ => isFalse (fun hc => JVal.noConfusion hc)
  | .float _, .obj _ => isFalse (fun hc => JVal.noConfusion hc)
  | .arr _, .null => isFalse (fun hc => JVal.noConfusion hc)
  | .arr _, .bool _ => isFalse (fun hc => JVal.noConfusion hc)
  | .arr _, .int _ => isFalse (fun hc => JVal.noConfusion hc)
  | .arr _, .str _ => isFalse (fun hc => JVal.noConfusion hc)
  | .arr _, .float _ => isFalse (fun hc => JVal.noConfusion hc)
  | .arr _, .obj _ => isFalse (fun hc => JVal.noConfusion hc)
  | .obj _, .null => isFalse (fun hc => JVal.noConfusion hc)
  | .obj _, .bool _ => isFalse (fun hc => JVal.noConfusion hc)
  | .obj _, .int _ => isFalse (fun hc => JVal.noConfusion hc)
  | .obj _, .str _ => isFalse (fun hc => JVal.noConfusion hc)
  | .obj _, .float _ => isFalse (fun hc => JVal.noConfusion hc)
  | .obj _, .arr _ => isFalse (fun hc => JVal.noConfusion hc)
termination_by structural a => a

/-- Decidable equality on lists of JSON-like values. -/
def decEqLJ : (a b : List JVal) → Decidable (a = b)
  | [], [] => isTrue rfl
  | [], _ :: _ => isFalse (fun hc => List.noConfusion hc)
  | _ :: _, [] => isFalse (fun hc => List.noConfusion hc)
  | x :: xs, y :: ys =>
      match decEqJ x y with
      | isFalse h => isFalse (fun hc => h (by injection hc))
      | isTrue h1 =>
          match decEqLJ xs ys with
          | isTrue h2 => isTrue (by rw [h1, h2])
          | isFalse h2 => isFalse (fun hc => h2 (by injection hc))
termination_by structural a => a

/-- Decidable equality on association lists of JSON-like values. -/
def decEqOJ : (a b : List (List Char × JVal)) → Decidable (a = b)
  | [], [] => isTrue rfl
  | [], _ :: _ => isFalse (fun hc => List.noConfusion hc)
  | _ :: _, [] => isFalse (fun hc => List.noConfusion hc)
  | (k1, v1) :: xs, (k2, v2) :: ys =>
      if hk : k1 = k2 then
        match decEqJ v1 v2 with
        | isFalse h =>
            isFalse (fun hc => by
              cases hc
              exact h rfl)
        | isTrue h1 =>
            match decEqOJ xs ys with
            | isTrue h2 => isTrue (by rw [hk, h1, h2])
            | isFalse h2 => isFalse (fun hc => h2 (by injection hc))
      else
        isFalse (fun hc => by
          cases hc
          exact hk rfl)
termination_by structural a => a

end

instance : DecidableEq JVal := decEqJ

/-- Python truthiness of a JSON-like value: None, False, 0, empty string,
empty list and empty dict are falsy, everything else is truthy. -/
def truthy : JVal → Bool
  | .null => false
  | .bool b => b
  | .int n => n != 0
  | .str s => !s.isEmpty
  | .float q => q != 0
  | .arr l => !l.isEmpty
  | .obj l => !l.isEmpty

/-! ## Cache (src/cache.py, InMemoryCache)

The store is an association list from keys to (value, expiry) pairs, plus
hit and miss counters, mirroring the dict and stats of InMemoryCache. -/

/-- State of InMemoryCache: stored entries and hit/miss statistics. -/
structure Cache where
  store : List (String × JVal × Nat)
  hits : Nat
  misses : Nat
deriving DecidableEq

/-- Fresh empty cache, as built by the InMemoryCache constructor. -/
def Cache.empty : Cache := ⟨[], 0, 0⟩

/-- Association-list lookup of the first entry with the given key,
modelling membership in the backing dict. -/
def Cache.lookup (c : Cache) (key : String) : Option (JVal × Nat) :=
  (c.store.find? (fun e => e.1 == key)).map (·.2)

/-- Remove a key from the store, modelling del on the backing dict. -/
def storeErase (s : List (String × JVal × Nat)) (key : String) :
    List (String × JVal × Nat) :=
  s.filter (fun e => e.1 != key)

/-- Insert or overwrite a key in the store, modelling dict assignment. -/
def storeInsert (s : List (String × JVal × Nat)) (key : String)
    (v : JVal) (expiry : Nat) : List (String × JVal × Nat) :=
  (key, v, expiry) :: storeErase s key

/-- InMemoryCache.get at time now: a present, unexpired key is a hit and
returns the value; an expired key is removed and the read is a miss; a
missing key is a miss. -/
def Cache.get (c : Cache) (now : Nat) (key : String) :
    Option JVal × Cache :=
  match c.lookup key with
  | some (v, expiry) =>
      if now < expiry then
        (some v, { c with hits := c.hits + 1 })
      else
        (none, { c with store := storeErase c.store key,
                        misses := c.misses + 1 })
  | none => (none, { c with misses := c.misses + 1 })

/-- InMemoryCache.set at time now: unconditionally overwrite the entry and
reset its expiry to now + ttl. -/
def Cache.set (c : Cache) (now : Nat) (key : String) (v : JVal)
    (ttl : Nat) : Cache :=
  { c with store := storeInsert c.store key v (now + ttl) }

/-! ## Policy enforcer (src/policy.py) -/

/-- Lowercase one character, modelling str.lower on the ASCII queries the
policy patterns target. -/
def lowerChar (c : Char) : Char :=
  if ('A' ≤ c && c ≤ 'Z') then Char.ofNat (c.toNat + 32) else c

/-- Lowercase a string character by character. -/
def lowerStr (s : List Char) : List Char := s.map lowerChar

/-- Whitespace characters recognised by the regex class backslash-s. -/
def isSpaceChar (c : Char) : Bool :=
  c == ' ' || c == '\t' || c == '\n' || c == '\r' || c == '\x0b' || c == '\x0c'

/-- Drop one or more leading whitespace characters; none means the input
did not start with whitespace, so the regex one-or-more class fails. -/
def dropSpaces1 : List Char → Option (List Char)
  | c :: rest =>
      if isSpaceChar c then some (rest.dropWhile isSpaceChar) else none
  | [] => none

/-- Match the pattern w1, one-or-more whitespace, w2 at the head of the
input, the anchored form of the blocked-content regexes. -/
def matchSpacedAt (w1 w2 s : List Char) : Bool :=
  if w1.isPrefixOf s then
    match dropSpaces1 (s.drop w1.length) with
    | some rest => w2.isPrefixOf rest
    | none => false
  else false

/-- Search for the spaced pattern anywhere in the input, modelling
re.search of a blocked-content regex of the shape w1 backslash-s + w2. -/
def matchSpaced (w1 w2 : List Char) : List Char → Bool
  | [] => matchSpacedAt w1 w2 []
  | c :: rest => matchSpacedAt w1 w2 (c :: rest) || matchSpaced w1 w2 rest

/-- One blocked-content pattern: its two literal words and the raw regex
source text used in the violation message. -/
structure Pattern where
  w1 : List Char
  w2 : List Char
  raw : String
deriving DecidableEq, Repr

/-- Rule state of PolicyEnforcer: blocked domains, allowed tool names and
blocked-content patterns, as initialised in PolicyEnforcer.__init__. -/
structure Policy where
  blockedDomains : List String
  allowedTools : List String
  blockedPatterns : List Pattern
deriving Repr

/-- The default rule sets of PolicyEnforcer.__init__. -/
def defaultPolicy : Policy :=
  { blockedDomains := ["malicious.com", "spam.site", "phishing.net"]
    allowedTools := ["web_search", "weather", "calculator"]
    blockedPatterns :=
      [ ⟨"hack".toList, "into".toList, "hack\\s+into"⟩
      , ⟨"ddos".toList, "attack".toList, "ddos\\s+attack"⟩
      , ⟨"exploit".toList, "vulnerability".toList, "exploit\\s+vulnerability"⟩ ] }

/-- Does the lowercased query match a given blocked pattern. -/
def patternHits (q : List Char) (p : Pattern) : Bool :=
  matchSpaced p.w1 p.w2 q

/-- PolicyEnforcer.check_query_content: scan the lowercased query against
each blocked pattern in order; raise on the first match. -/
def checkQueryContent (pol : Policy) (query : String) :
    Except String Unit :=
  let q := lowerStr query.toList
  match pol.blockedPatterns.find? (patternHits q) with
  | some p => .error ("Query contains blocked content: " ++ p.raw)
  | none => .ok ()

/-- PolicyEnforcer.check_tool_allowed: raise unless the tool name is in
the allowlist. -/
def checkToolAllowed (pol : Policy) (toolName : String) :
    Except String Unit :=
  if toolName ∈ pol.allowedTools then .ok ()
  else .error ("Tool '" ++ toolName ++ "' is not in allowlist")

/-- Extract the network location of a URL, modelling urlparse(url).netloc:
the text between the scheme separator and the next slash, empty when the
URL has no scheme separator. -/
def urlNetloc (url : String) : String :=
  let cs := url.toList
  let rec findSep : List Char → Option (List Char)
    | ':' :: '/' :: '/' :: rest => some rest
    | _ :: rest => findSep rest
    | [] => none
  match findSep cs with
  | some rest => String.mk (rest.takeWhile (fun c => c ≠ '/' ∧ c ≠ '?' ∧ c ≠ '#'))
  | none => ""

/-- PolicyEnforcer.check_url_allowed: raise when the URL domain is on the
blocklist. -/
def checkUrlAllowed (pol : Policy) (url : String) : Except String Unit :=
  let domain := urlNetloc url
  if domain ∈ pol.blockedDomains then
    .error ("Domain '" ++ domain ++ "' is blocked")
  else .ok ()

/-- Argument mappings as supplied to a tool call, in supply order. -/
abbrev Args := List (String × JVal)

/-- First value bound to a key in an argument mapping. -/
def argLookup (k : String) (a : Args) : Option JVal :=
  (a.find? (fun e => e.1 == k)).map (·.2)

/-- PolicyEnforcer.validate_tool_call: content check, then allowlist
check, then URL-domain check when the arguments carry a url field, in
that fixed order, short-circuiting on the first violation. -/
def validateToolCall (pol : Policy) (toolName : String) (args : Args)
    (query : String) : Except String Unit := do
  checkQueryContent pol query
  checkToolAllowed pol toolName
  match argLookup "url" args with
  | some (.str u) => checkUrlAllowed pol (String.mk u)
  | _ => .ok ()

/-! ## Canonical JSON serialization (json.dumps with sort_keys)

The cache key of a tool call is the tool name, a colon, and the
json.dumps serialization of the keyword arguments with sorted keys
(src/tools/base.py line 79). Strings are serialized with quote and
backslash escaping; ASCII control-character and non-ASCII escapes are
outside the character sets the repository passes and are not modelled.
Python float arguments never occur in the repository and their repr is
not representable here, so canonical argument values exclude floats. -/

/-- Decimal digits with explicit fuel; any fuel beyond the number itself
is ample, and the wrapper below always supplies enough. -/
def natDigitsF : Nat → Nat → List Char
  | 0, _ => []
  | fuel + 1, n =>
      if n < 10 then [Char.ofNat (48 + n)]
      else natDigitsF fuel (n / 10) ++ [Char.ofNat (48 + n % 10)]

/-- Decimal digits of a natural number, most significant first. -/
def natDigits (n : Nat) : List Char := natDigitsF (n + 1) n

/-- Decimal representation of an integer, as json.dumps prints it. -/
def intChars (n : Int) : List Char :=
  if n < 0 then '-' :: natDigits (-n).toNat else natDigits n.toNat

/-- Escape one character of a JSON string body. -/
def escChar (c : Char) : List Char :=
  if c = '"' then ['\\', '"']
  else if c = '\\' then ['\\', '\\']
  else [c]

/-- Escape a JSON string body. -/
def escape (s : List Char) : List Char := s.flatMap escChar

/-- Quoted JSON string literal. -/
def strLit (s : List Char) : List Char := '"' :: escape s ++ ['"']

/-- Interleave a separator between serialized items, the comma-space of
json.dumps default separators. -/
def sepConcat (sep : List Char) : List (List Char) → List Char
  | [] => []
  | [x] => x
  | x :: y :: t => x ++ sep ++ sepConcat sep (y :: t)

/-- The JSON spelling of None. -/
def nullChars : List Char := 'n' :: 'u' :: 'l' :: 'l' :: []

/-- The JSON spelling of a boolean. -/
def boolChars (b : Bool) : List Char :=
  if b then 't' :: 'r' :: 'u' :: 'e' :: []
  else 'f' :: 'a' :: 'l' :: 's' :: 'e' :: []

mutual

/-- Serialize a JSON-like value the way json.dumps does, given that
object entries are already listed in their canonical sorted order. The
float case is a placeholder: canonical argument values exclude floats. -/
def dumps : JVal → List Char
  | .null => nullChars
  | .bool b => boolChars b
  | .int n => intChars n
  | .float _ => ['0', '.', '0']
  | .str s => strLit s
  | .arr vs => '[' :: sepConcat [',', ' '] (dumpsList vs) ++ [']']
  | .obj kvs => '{' :: sepConcat [',', ' '] (dumpsMembers kvs) ++ ['}']
termination_by structural v => v

/-- Serializations of the elements of a JSON array. -/
def dumpsList : List JVal → List (List Char)
  | [] => []
  | v :: t => dumps v :: dumpsList t
termination_by structural l => l

/-- Serializations of the members of a JSON object: quoted key, colon,
space, value. -/
def dumpsMembers : List (List Char × JVal) → List (List Char)
  | [] => []
  | (k, v) :: t => (strLit k ++ ':' :: ' ' :: dumps v) :: dumpsMembers t
termination_by structural l => l

end

/-- Keyword arguments of a tool call: argument names mapped to values,
in the order they were supplied. -/
abbrev KwArgs := List (List Char × JVal)

/-- Sort keyword arguments by argument name, the canonicalization that
sort_keys performs. -/
def sortArgs (a : KwArgs) : KwArgs :=
  a.insertionSort (fun p q => p.1 ≤ q.1)

/-- Serialize keyword arguments canonically: json.dumps of the argument
dict with sorted keys. -/
def dumpsArgs (a : KwArgs) : List Char := dumps (.obj (sortArgs a))

/-- The cache key of a tool call: tool name, colon, canonical argument
serialization (src/tools/base.py line 79). -/
def cacheKeyChars (name : List Char) (a : KwArgs) : List Char :=
  name ++ ':' :: dumpsArgs a

/-- Argument names bound by a keyword-argument list. -/
def keysOf (a : KwArgs) : List (List Char) := a.map (·.1)

/-- Keyword arguments bind each name at most once, as Python keyword
arguments do. -/
def NodupKeys (a : KwArgs) : Prop := (keysOf a).Nodup

/-- First value bound to an argument name. -/
def alookup (k : List Char) (a : KwArgs) : Option JVal :=
  (a.find? (fun p => p.1 == k)).map (·.2)

/-- Strict key order on entries. -/
def keyLt (p q : List Char × JVal) : Prop := p.1 < q.1

/-- Weak key order on entries, the insertion-sort relation. -/
def keyLe (p q : List Char × JVal) : Prop := p.1 ≤ q.1

instance : DecidableRel keyLe := fun p q =>
  inferInstanceAs (Decidable (p.1 ≤ q.1))

instance : IsTotal (List Char × JVal) keyLe := ⟨fun a b => le_total a.1 b.1⟩

instance : IsTrans (List Char × JVal) keyLe := ⟨fun _ _ _ h1 h2 => le_trans h1 h2⟩

mutual

/-- Canonical values: the faithful representations of Python dict and
list payloads, with every nested dict written as its key-sorted
association list, the order json.dumps with sort_keys prints; floats are
excluded because their repr is not representable here and no argument
mapping of the repository carries one. -/
def CanonV : JVal → Prop
  | .null => True
  | .bool _ => True
  | .int _ => True
  | .str _ => True
  | .float _ => False
  | .arr vs => CanonL vs
  | .obj kvs => List.Pairwise keyLt kvs ∧ CanonO kvs
termination_by structural v => v

/-- Canonicity of every element of an array. -/
def CanonL : List JVal → Prop
  | [] => True
  | v :: t => CanonV v ∧ CanonL t
termination_by structural l => l

/-- Canonicity of every value of an object. -/
def CanonO : List (List Char × JVal) → Prop
  | [] => True
  | kv :: t => CanonV kv.2 ∧ CanonO t
termination_by structural l => l

end

/-- Structural class of a value, used to tell serializations of
different constructors apart. -/
def tag : JVal → Nat
  | .null => 0
  | .bool _ => 1
  | .int _ => 2
  | .str _ => 3
  | .float _ => 4
  | .arr _ => 5
  | .obj _ => 6

/-- Class of the final character of a serialization (the first character
read from the right). -/
def charTag (c : Char) : Nat :=
  if c = 'l' then 0
  else if c = 'e' then 1
  else if c.isDigit then 2
  else if c = '"' then 3
  else if c = ']' then 5
  else if c = '}' then 6
  else 7

/-- A right context a serialization can be followed by when read from
the right: it may not begin with a backslash, a digit or a minus sign,
the characters that would merge with a string escape or a number. -/
def Good (r : List Char) : Prop :=
  ∀ c, r.head? = some c → c ≠ '\\' ∧ c.isDigit = false ∧ c ≠ '-'

/-- Reversed escape of a string body read from the right: each source
character contributes its reversed escape unit. -/
def escRev (t : List Char) : List Char := t.flatMap (fun c => (escChar c).reverse)

/-- Right-determinism of one value: its reversed serialization followed
by a Good context delimits the value and the context uniquely. -/
def DetV (v1 : JVal) : Prop :=
  ∀ v2 r1 r2, CanonV v1 → CanonV v2 → Good r1 → Good r2 →
    (dumps v1).reverse ++ r1 = (dumps v2).reverse ++ r2 → v1 = v2 ∧ r1 = r2

/-! ## Tool wrapper (src/tools/base.py, BaseTool.execute)

The wrapper is decorated with tenacity retry (3 attempts, exponential
backoff, reraise) but its body catches every exception around the core
call, so the decorated function can only ever be observed through the
attempts the retry loop actually makes. Latency is measured wall time in
the source; in this instantaneous model it is 0. -/

/-- Outcome of one tool invocation, the ToolResult model
(src/models.py). -/
structure ToolResult where
  tool_name : String
  result : Option JVal
  latency_ms : Nat
  error : Option String
  cached : Bool
deriving DecidableEq

/-- Effect of running the wrapper body once: the returned ToolResult, the
cache state left behind, and how many times the core implementation was
invoked. -/
structure ExecEffect where
  result : ToolResult
  cache : Option Cache
  coreCalls : Nat
deriving DecidableEq

/-- Cache probe of the wrapper: look the key up, and following the
truthiness test of the source (if cached_result:), report a hit only for
a truthy stored value; the cache statistics are updated either way. -/
def cacheProbe (cache : Option Cache) (now : Nat) (key : String) :
    Option JVal × Option Cache :=
  match cache with
  | none => (none, none)
  | some c =>
      match c.get now key with
      | (some v, c1) => if truthy v then (some v, some c1) else (none, some c1)
      | (none, c1) => (none, some c1)

/-- Core call section of the wrapper body: on success, store the fresh
result under the key with ttl 300 and return it; on a raised exception,
catch it and return an error outcome with no result, never re-raising. -/
def runCore (name : String) (cache : Option Cache) (key : String)
    (core : Except String JVal) (now : Nat) : ExecEffect :=
  match core with
  | .ok res => ⟨⟨name, some res, 0, none, false⟩,
      cache.map (fun c => c.set now key res 300), 1⟩
  | .error e => ⟨⟨name, none, 0, some e, false⟩, cache, 1⟩

/-- One run of the wrapper body (the function tenacity decorates): probe
the cache, return a cached outcome on a truthy hit, otherwise run the
core; every exception path of the body is caught inside it. -/
def executeBody (name : String) (cache : Option Cache) (kwargs : KwArgs)
    (core : Except String JVal) (now : Nat) : ExecEffect :=
  let key := String.mk (cacheKeyChars name.toList kwargs)
  match cacheProbe cache now key with
  | (some v, c1) => ⟨⟨name, some v, 0, none, true⟩, c1, 0⟩
  | (none, c1) => runCore name c1 key core now

/-- The tenacity retry loop with reraise: run the attempt; on a raised
exception try again while attempts remain, re-raising the final one. The
second component counts the attempts performed. -/
def tenacityCall (remaining : Nat) (f : Nat → Except String α)
    (attempt : Nat) : Except String α × Nat :=
  match remaining with
  | 0 => (.error "RetryError", attempt)
  | 1 => (f attempt, attempt + 1)
  | n + 2 =>
      match f attempt with
      | .ok a => (.ok a, attempt + 1)
      | .error _ => tenacityCall (n + 1) f (attempt + 1)

/-- The decorated execute of BaseTool: tenacity with stop_after_attempt 3
around the body. The per-attempt core behavior is supplied as a function
of the attempt index, so the theorems can observe which attempts the
wrapper actually makes. -/
def executeTool (name : String) (cache : Option Cache) (kwargs : KwArgs)
    (core : Nat → Except String JVal) (now : Nat) :
    Except String ExecEffect × Nat :=
  tenacityCall 3 (fun k => .ok (executeBody name cache kwargs (core k) now)) 0

/-! ## Calculator tool (src/tools/calculator.py)

The tool parses an arithmetic expression with ast.parse in eval mode and
folds the tree with _eval_expr, which handles only numeric constants,
the binary operators of the OPERATORS table, and unary plus and minus.
Numbers are modelled exactly: Python ints as Int and the floats these
expressions produce as rationals (the inputs of the claims stay within
exactly representable values). The parser below models ast.parse
restricted to the arithmetic fragment: any other input raises a
SyntaxError, as the arithmetic-only expressions of this tool do. -/

/-- Construct the reduced rational n over d, taking the sign of d into
account; d is never 0 at the call sites, which guard divisions. -/
def mkRat2 (n d : Int) : Rat :=
  if hd : d = 0 then 0
  else Rat.normalize (if d < 0 then -n else n) d.natAbs
    (Int.natAbs_ne_zero.mpr hd)

/-- Exact rational of an integer. -/
def ratOfInt (n : Int) : Rat := Rat.normalize n 1 one_ne_zero

/-- Rational addition, written through Rat.normalize so that concrete
runs reduce inside the kernel. -/
def ratAdd (q r : Rat) : Rat :=
  Rat.normalize (q.num * (r.den : Int) + r.num * (q.den : Int))
    (q.den * r.den) (Nat.mul_ne_zero q.den_nz r.den_nz)

/-- Rational subtraction. -/
def ratSub (q r : Rat) : Rat :=
  Rat.normalize (q.num * (r.den : Int) - r.num * (q.den : Int))
    (q.den * r.den) (Nat.mul_ne_zero q.den_nz r.den_nz)

/-- Rational multiplication. -/
def ratMul (q r : Rat) : Rat :=
  Rat.normalize (q.num * r.num) (q.den * r.den)
    (Nat.mul_ne_zero q.den_nz r.den_nz)

/-- Rational division; division by zero is guarded at the call sites. -/
def ratDiv (q r : Rat) : Rat := mkRat2 (q.num * (r.den : Int)) (r.num * (q.den : Int))

/-- Rational natural power. -/
def ratPowNat (q : Rat) : Nat → Rat
  | 0 => ratOfInt 1
  | n + 1 => ratMul q (ratPowNat q n)

/-- Rational integer power; a negative exponent inverts, and the zero
base under a negative exponent is guarded at the call sites. -/
def ratPowInt (q : Rat) (k : Int) : Rat :=
  if k < 0 then ratDiv (ratOfInt 1) (ratPowNat q (-k).toNat)
  else ratPowNat q k.toNat

/-- Floor of a rational, as an integer. -/
def ratFloor (q : Rat) : Int := Int.fdiv q.num (q.den : Int)

/-- Numeric values of the calculator: Python int or float. -/
inductive Num where
  | int : Int → Num
  | float : Rat → Num
deriving DecidableEq

/-- Rational magnitude of a number. -/
def Num.toRat : Num → Rat
  | .int n => ratOfInt n
  | .float q => q

/-- Binary operators of the Python arithmetic AST reachable from the
token set of the fragment; FloorDiv is parsed but is not in the
OPERATORS table of the tool. -/
inductive BOp where
  | add | sub | mul | div | pow | mod | floordiv
deriving DecidableEq

/-- Arithmetic expression tree, the fragment of the Python AST the
calculator accepts. -/
inductive AExpr where
  | num : Num → AExpr
  | binop : BOp → AExpr → AExpr → AExpr
  | neg : AExpr → AExpr
  | pos : AExpr → AExpr
deriving DecidableEq

/-- Errors _execute_impl distinguishes: SyntaxError from parsing,
ValueError for unsupported nodes, ZeroDivisionError from arithmetic. -/
inductive CalcErr where
  | syntaxErr : String → CalcErr
  | valueErr : String → CalcErr
  | zeroDiv : String → CalcErr
deriving DecidableEq

/-- Python addition on these numbers: int when both are ints. -/
def numAdd : Num → Num → Num
  | .int a, .int b => .int (a + b)
  | a, b => .float (ratAdd a.toRat b.toRat)

/-- Python subtraction. -/
def numSub : Num → Num → Num
  | .int a, .int b => .int (a - b)
  | a, b => .float (ratSub a.toRat b.toRat)

/-- Python multiplication. -/
def numMul : Num → Num → Num
  | .int a, .int b => .int (a * b)
  | a, b => .float (ratMul a.toRat b.toRat)

/-- Python true division: always a float, raising ZeroDivisionError on a
zero divisor. -/
def numDiv (a b : Num) : Except CalcErr Num :=
  if b.toRat.num = 0 then .error (.zeroDiv "division by zero")
  else .ok (.float (ratDiv a.toRat b.toRat))

/-- Python modulo with floor semantics, raising on a zero divisor. -/
def numMod : Num → Num → Except CalcErr Num
  | .int a, .int b =>
      if b = 0 then .error (.zeroDiv "integer division or modulo by zero")
      else .ok (.int (Int.fmod a b))
  | a, b =>
      if b.toRat.num = 0 then .error (.zeroDiv "float modulo")
      else .ok (.float (ratSub a.toRat
        (ratMul b.toRat (ratOfInt (ratFloor (ratDiv a.toRat b.toRat))))))

/-- Python power on the values these expressions reach; a non-integral
float exponent is outside the rational model and no claim evaluates
one. -/
def numPow : Num → Num → Except CalcErr Num
  | .int a, .int b =>
      if b < 0 then
        if a = 0 then
          .error (.zeroDiv "0.0 cannot be raised to a negative power")
        else .ok (.float (ratPowInt (ratOfInt a) b))
      else .ok (.int (a ^ b.toNat))
  | a, b =>
      if b.toRat.den = 1 then
        if a.toRat.num = 0 ∧ b.toRat.num < 0 then
          .error (.zeroDiv "0.0 cannot be raised to a negative power")
        else .ok (.float (ratPowInt a.toRat b.toRat.num))
      else .ok (.float 0)

/-- Apply one supported binary operator; FloorDiv is rejected by the
OPERATORS table with a ValueError before operands matter. -/
def applyOp (o : BOp) (a b : Num) : Except CalcErr Num :=
  match o with
  | .add => .ok (numAdd a b)
  | .sub => .ok (numSub a b)
  | .mul => .ok (numMul a b)
  | .div => numDiv a b
  | .pow => numPow a b
  | .mod => numMod a b
  | .floordiv => .error (.valueErr "Unsupported operator: FloorDiv")

/-- The _eval_expr fold: constants evaluate to themselves, a binary node
checks its operator against the OPERATORS table before recursing, unary
minus negates and unary plus passes through. -/
def evalExpr : AExpr → Except CalcErr Num
  | .num v => .ok v
  | .binop o l r =>
      if o = .floordiv then .error (.valueErr "Unsupported operator: FloorDiv")
      else do
        let a ← evalExpr l
        let b ← evalExpr r
        applyOp o a b
  | .neg e => do
      let a ← evalExpr e
      match a with
      | .int n => .ok (.int (-n))
      | .float q => .ok (.float (-q))
  | .pos e => evalExpr e

/-- Tokens of the arithmetic fragment. -/
inductive Tok where
  | num : Num → Tok
  | op : BOp → Tok
  | lparen | rparen
deriving DecidableEq

/-- Numeric value of a digit character. -/
def digitVal (c : Char) : Nat := c.toNat - 48

/-- Fold decimal digit characters into a natural number. -/
def digitsToNat (ds : List Char) : Nat :=
  ds.foldl (fun acc c => acc * 10 + digitVal c) 0

/-- Scan a number literal starting at a digit: the digit run, and when a
dot follows, the fractional digit run, as Python number literals allow;
returns the token and the unconsumed remainder. -/
def numToken (c : Char) (rest : List Char) : Tok × List Char :=
  let ds := (c :: rest).takeWhile Char.isDigit
  match (c :: rest).dropWhile Char.isDigit with
  | '.' :: rest2 =>
      let fs := rest2.takeWhile Char.isDigit
      let whole : Rat := ratOfInt (digitsToNat ds)
      let frac : Rat := ratDiv (ratOfInt (digitsToNat fs))
        (ratPowNat (ratOfInt 10) fs.length)
      (.num (.float (ratAdd whole frac)), rest2.dropWhile Char.isDigit)
  | rest1 => (.num (.int (digitsToNat ds)), rest1)

/-- Fueled tokenizer loop; each recursive step consumes at least one
input character, so the wrapper below always supplies ample fuel. -/
def tokenizeF : Nat → List Char → Except CalcErr (List Tok)
  | 0, _ => .error (.syntaxErr "invalid syntax")
  | _ + 1, [] => .ok []
  | fuel + 1, '*' :: '*' :: rest => (tokenizeF fuel rest).map (Tok.op .pow :: ·)
  | fuel + 1, '/' :: '/' :: rest => (tokenizeF fuel rest).map (Tok.op .floordiv :: ·)
  | fuel + 1, '*' :: rest => (tokenizeF fuel rest).map (Tok.op .mul :: ·)
  | fuel + 1, '/' :: rest => (tokenizeF fuel rest).map (Tok.op .div :: ·)
  | fuel + 1, '+' :: rest => (tokenizeF fuel rest).map (Tok.op .add :: ·)
  | fuel + 1, '-' :: rest => (tokenizeF fuel rest).map (Tok.op .sub :: ·)
  | fuel + 1, '%' :: rest => (tokenizeF fuel rest).map (Tok.op .mod :: ·)
  | fuel + 1, '(' :: rest => (tokenizeF fuel rest).map (Tok.lparen :: ·)
  | fuel + 1, ')' :: rest => (tokenizeF fuel rest).map (Tok.rparen :: ·)
  | fuel + 1, c :: rest =>
      if isSpaceChar c then tokenizeF fuel rest
      else if c.isDigit then
        (tokenizeF fuel (numToken c rest).2).map ((numToken c rest).1 :: ·)
      else .error (.syntaxErr "invalid syntax")

/-- Tokenize the arithmetic fragment: decimal int and float literals,
the operator characters, parentheses and whitespace; anything else is a
SyntaxError, as ast.parse reports for the non-arithmetic inputs this
tool receives. -/
def tokenize (s : List Char) : Except CalcErr (List Tok) :=
  tokenizeF (s.length + 1) s

mutual

/-- Parse a full expression: a term followed by additive operators. -/
def pExpr : Nat → List Tok → Except CalcErr (AExpr × List Tok)
  | 0, _ => .error (.syntaxErr "invalid syntax")
  | f + 1, ts => do
      let (l, ts1) ← pTerm f ts
      pExprRest f l ts1
termination_by structural f _ => f

/-- Left-associative chain of + and -. -/
def pExprRest : Nat → AExpr → List Tok → Except CalcErr (AExpr × List Tok)
  | 0, _, _ => .error (.syntaxErr "invalid syntax")
  | f + 1, acc, .op .add :: ts => do
      let (r, ts1) ← pTerm f ts
      pExprRest f (.binop .add acc r) ts1
  | f + 1, acc, .op .sub :: ts => do
      let (r, ts1) ← pTerm f ts
      pExprRest f (.binop .sub acc r) ts1
  | _ + 1, acc, ts => .ok (acc, ts)
termination_by structural f _ _ => f

/-- Parse a term: a factor followed by multiplicative operators. -/
def pTerm : Nat → List Tok → Except CalcErr (AExpr × List Tok)
  | 0, _ => .error (.syntaxErr "invalid syntax")
  | f + 1, ts => do
      let (l, ts1) ← pFactor f ts
      pTermRest f l ts1
termination_by structural f _ => f

/-- Left-associative chain of *, /, % and //. -/
def pTermRest : Nat → AExpr → List Tok → Except CalcErr (AExpr × List Tok)
  | 0, _, _ => .error (.syntaxErr "invalid syntax")
  | f + 1, acc, .op .mul :: ts => do
      let (r, ts1) ← pFactor f ts
      pTermRest f (.binop .mul acc r) ts1
  | f + 1, acc, .op .div :: ts => do
      let (r, ts1) ← pFactor f ts
      pTermRest f (.binop .div acc r) ts1
  | f + 1, acc, .op .mod :: ts => do
      let (r, ts1) ← pFactor f ts
      pTermRest f (.binop .mod acc r) ts1
  | f + 1, acc, .op .floordiv :: ts => do
      let (r, ts1) ← pFactor f ts
      pTermRest f (.binop .floordiv acc r) ts1
  | _ + 1, acc, ts => .ok (acc, ts)
termination_by structural f _ _ => f

/-- Parse a factor: unary plus or minus applied to a factor, otherwise a
power, matching the precedence of the Python grammar where unary minus
binds looser than **. -/
def pFactor : Nat → List Tok → Except CalcErr (AExpr × List Tok)
  | 0, _ => .error (.syntaxErr "invalid syntax")
  | f + 1, .op .add :: ts => do
      let (e, ts1) ← pFactor f ts
      .ok (.pos e, ts1)
  | f + 1, .op .sub :: ts => do
      let (e, ts1) ← pFactor f ts
      .ok (.neg e, ts1)
  | f + 1, ts => pPower f ts
termination_by structural f _ => f

/-- Parse a power: an atom optionally raised to a factor, right
associative. -/
def pPower : Nat → List Tok → Except CalcErr (AExpr × List Tok)
  | 0, _ => .error (.syntaxErr "invalid syntax")
  | f + 1, ts => do
      let (a, ts1) ← pAtom f ts
      match ts1 with
      | .op .pow :: ts2 => do
          let (e, ts3) ← pFactor f ts2
          .ok (.binop .pow a e, ts3)
      | _ => .ok (a, ts1)
termination_by structural f _ => f

/-- Parse an atom: a number literal or a parenthesized expression. -/
def pAtom : Nat → List Tok → Except CalcErr (AExpr × List Tok)
  | 0, _ => .error (.syntaxErr "invalid syntax")
  | _ + 1, .num v :: ts => .ok (.num v, ts)
  | f + 1, .lparen :: ts => do
      let (e, ts1) ← pExpr f ts
      match ts1 with
      | .rparen :: ts2 => .ok (e, ts2)
      | _ => .error (.syntaxErr "invalid syntax")
  | _ + 1, _ => .error (.syntaxErr "invalid syntax")
termination_by structural f _ => f

end

/-- Parse an expression string: tokenize, parse with fuel ample for the
descent depth, and require all tokens consumed, as eval mode does. -/
def parseArith (s : List Char) : Except CalcErr AExpr := do
  let toks ← tokenize s
  let (e, rest) ← pExpr (4 * toks.length + 8) toks
  match rest with
  | [] => .ok e
  | _ => .error (.syntaxErr "invalid syntax")

/-- Strip leading and trailing whitespace, as str.strip does. -/
def stripChars (s : List Char) : List Char :=
  ((s.dropWhile isSpaceChar).reverse.dropWhile isSpaceChar).reverse

/-- Output dictionary of the calculator tool. -/
structure CalcOut where
  expression : List Char
  result : Option Num
  success : Bool
  error : Option String
  sources : List (String × String)
deriving DecidableEq

/-- The source list every calculator outcome carries. -/
def calcSources : List (String × String) := [("Calculator", "internal://calculator")]

/-- The _execute_impl of the calculator: strip the expression, parse and
fold it, and catch SyntaxError, ValueError and ZeroDivisionError into a
success false dictionary with a human-readable error, so that no
exception crosses the tool boundary. -/
def calcImpl (expression : List Char) : CalcOut :=
  let expr := stripChars expression
  match (do
      let t ← parseArith expr
      evalExpr t : Except CalcErr Num) with
  | .ok v => ⟨expr, some v, true, none, calcSources⟩
  | .error (.syntaxErr m) =>
      ⟨expr, none, false, some ("Syntax error: " ++ m), calcSources⟩
  | .error (.valueErr m) => ⟨expr, none, false, some m, calcSources⟩
  | .error (.zeroDiv m) => ⟨expr, none, false, some m, calcSources⟩

/-! ## Agent execution layer (src/agent.py)

The per-invocation path of _execute_tool_with_limit runs, while holding a
semaphore slot: the policy check, the registry lookup, and the tool
wrapper. Tools are modelled as total functions from arguments to
ToolResult, which the wrapper layer justifies: execute never raises. The
semaphore is modelled separately by the scheduler below, because it
bounds interleaving without changing any per-invocation value. -/

/-- A planned tool invocation, the ToolCall model (src/models.py). -/
structure ToolCallM where
  name : String
  args : Args
deriving DecidableEq

/-- A registry of tools: names mapped to executable behaviors, looked up
the way ToolRegistry.get_tool reads its dict. -/
abbrev Registry := List (String × (Args → ToolResult))

/-- Registry lookup, dict.get(name). -/
def regGet (reg : Registry) (name : String) : Option (Args → ToolResult) :=
  (reg.find? (fun t => t.1 == name)).map (·.2)

/-- The body of _execute_tool_with_limit inside the semaphore slot: a
policy violation is caught and converted to an error outcome without
touching the registry; an unregistered name yields the not-found error
outcome; otherwise the tool wrapper runs. -/
def executeToolWithLimit (pol : Policy) (reg : Registry)
    (call : ToolCallM) (query : String) : ToolResult :=
  match validateToolCall pol call.name call.args query with
  | .error e => ⟨call.name, none, 0, some ("Policy violation: " ++ e), false⟩
  | .ok _ =>
      match regGet reg call.name with
      | none => ⟨call.name, none, 0,
          some ("Tool '" ++ call.name ++ "' not found"), false⟩
      | some run => run call.args

/-- The value content of _execute_tools_parallel: every invocation is
dispatched and produces exactly one outcome; asyncio.gather with
return_exceptions collects them all because no task raises. -/
def executeToolsParallel (pol : Policy) (reg : Registry)
    (calls : List ToolCallM) (query : String) : List ToolResult :=
  calls.map (fun c => executeToolWithLimit pol reg c query)

/-! ## Streaming mode (src/agent.py, query_stream)

The generator yields progress chunks in a fixed order inside one try
block; any exception reaching the block yields a terminal error chunk and
the generator stops. Each fallible step is modelled as an Except value:
the planner, the per-invocation execution, and the synthesizer. -/

/-- Chunks the streaming generator yields. -/
inductive Event where
  | status : String → Event
  | planning : List String → Nat → Event
  | toolStart : String → Args → Event
  | toolResult : String → Nat → Option String → Bool → Event
  | synthesis : String → Event
  | answer : Event
  | errorEv : String → Nat → Event
deriving DecidableEq

/-- Terminal chunks: the answer and the error chunk. -/
def Event.isTerminal : Event → Bool
  | .answer => true
  | .errorEv _ _ => true
  | _ => false

/-- The tool loop of query_stream: before each invocation, in planner
order, yield tool_start; if executing it raises, the events yielded so
far survive and the exception escapes; otherwise yield tool_result and
continue. Returns the yielded events and the escaping exception. -/
def streamLoop (exec : ToolCallM → Except String ToolResult) :
    List ToolCallM → List Event × Option String
  | [] => ([], none)
  | c :: rest =>
      match exec c with
      | .error e => ([.toolStart c.name c.args], some e)
      | .ok r =>
          match streamLoop exec rest with
          | (evs, exc) =>
              (.toolStart c.name c.args
                :: .toolResult r.tool_name r.latency_ms r.error r.cached
                :: evs, exc)

/-- The full chunk sequence of query_stream: the fixed status, planning
and synthesis chunks around the tool loop, one terminal answer chunk on
success, and on any raised exception a terminal error chunk with message
and timestamp instead, with no further chunks. -/
def queryStream (planner : Except String (List ToolCallM))
    (exec : ToolCallM → Except String ToolResult)
    (synth : Except String Unit) (now : Nat) : List Event :=
  let pre := [Event.status "Starting query processing...",
              Event.status "Planning tool selection..."]
  match planner with
  | .error e => pre ++ [.errorEv e now]
  | .ok calls =>
      let pre2 := pre ++ [.planning (calls.map (·.name)) calls.length,
                          .status "Executing tools..."]
      match streamLoop exec calls with
      | (evs, some e) => pre2 ++ evs ++ [.errorEv e now]
      | (evs, none) =>
          let pre3 := pre2 ++ evs ++ [.synthesis "Synthesizing final answer..."]
          match synth with
          | .error e => pre3 ++ [.errorEv e now]
          | .ok _ => pre3 ++ [.answer]

/-! ## Concurrency limiter (src/agent.py, asyncio.Semaphore)

The execute phase dispatches every invocation concurrently; each task
acquires one slot of the semaphore, performs its work while holding the
slot, and releases it on exit whatever the exit is, because the async
with statement releases on success, error outcome and exception alike.
The scheduler below takes arbitrary interleavings of these steps. -/

/-- How one task leaves its slot: returning an outcome, returning an
error outcome, or raising into the gather layer. -/
inductive ExitKind where
  | success | errorOutcome | exc
deriving DecidableEq

/-- Lifecycle phase of one invocation task: waiting for a slot, holding
a slot with some work remaining, or finished. -/
inductive Phase where
  | pending : Nat → ExitKind → Phase
  | running : Nat → ExitKind → Phase
  | finished : ExitKind → Phase
deriving DecidableEq

/-- Whether a task currently holds a semaphore slot. -/
def Phase.inFlight : Phase → Bool
  | .running _ _ => true
  | _ => false

/-- State of the execute phase: free slots of the semaphore and the
phase of every task. -/
structure ExecPhase where
  avail : Nat
  tasks : List Phase
deriving DecidableEq

/-- Number of tasks holding a slot. -/
def inFlightCount (s : ExecPhase) : Nat :=
  s.tasks.countP Phase.inFlight

/-- One scheduler step: a pending task acquires a free slot, a running
task performs one unit of work, or a running task with no work left
finishes with its exit kind and releases its slot unconditionally. -/
inductive ExecStep : ExecPhase → ExecPhase → Prop where
  | acquire (a : Nat) (ts : List Phase) (i w : Nat) (e : ExitKind)
      (hi : ts.get? i = some (.pending w e)) :
      ExecStep ⟨a + 1, ts⟩ ⟨a, ts.set i (.running w e)⟩
  | work (a : Nat) (ts : List Phase) (i w : Nat) (e : ExitKind)
      (hi : ts.get? i = some (.running (w + 1) e)) :
      ExecStep ⟨a, ts⟩ ⟨a, ts.set i (.running w e)⟩
  | finish (a : Nat) (ts : List Phase) (i : Nat) (e : ExitKind)
      (hi : ts.get? i = some (.running 0 e)) :
      ExecStep ⟨a, ts⟩ ⟨a + 1, ts.set i (.finished e)⟩

/-- Initial state of the execute phase: the semaphore holds its full
capacity and every planned invocation is pending. -/
def initPhase (cap : Nat) (work : List (Nat × ExitKind)) : ExecPhase :=
  ⟨cap, work.map (fun we => .pending we.1 we.2)⟩

/-- States the scheduler can reach from the initial state. -/
def ReachablePhase (cap : Nat) (work : List (Nat × ExitKind))
    (s : ExecPhase) : Prop :=
  Relation.ReflTransGen ExecStep (initPhase cap work) s

/-! ## Auxiliary lemmas about the cache store -/

/-- Erasing a key removes every binding for it. -/
theorem find_storeErase (s : List (String × JVal × Nat)) (k : String) :
    List.find? (fun e => e.1 == k) (storeErase s k) = none := by
  induction s with
  | nil => rfl
  | cons e t ih =>
      by_cases h : e.1 = k
      · simp [storeErase, List.filter_cons, h, ih]
      · simp [storeErase, List.filter_cons, h, List.find?_cons, ih]

/-- Setting a key makes its lookup return the value with expiry reset. -/
theorem lookup_set (c : Cache) (now : Nat) (k : String) (v : JVal)
    (t : Nat) : (c.set now k v t).lookup k = some (v, now + t) := by
  simp [Cache.set, Cache.lookup, storeInsert, List.find?_cons]

/-- Reading a present unexpired key returns its value and counts a hit. -/
theorem get_live (c : Cache) (now : Nat) (k : String) (v : JVal)
    (exp : Nat) (h : c.lookup k = some (v, exp)) (hlt : now < exp) :
    c.get now k = (some v, { c with hits := c.hits + 1 }) := by
  unfold Cache.get
  rw [h]
  simp [hlt]

/-- Reading a present expired key removes it and counts a miss. -/
theorem get_expired (c : Cache) (now : Nat) (k : String) (v : JVal)
    (exp : Nat) (h : c.lookup k = some (v, exp)) (hn : ¬ now < exp) :
    c.get now k
      = (none, { c with store := storeErase c.store k,
                        misses := c.misses + 1 }) := by
  unfold Cache.get
  rw [h]
  simp [hn]

/-- Reading an absent key counts a miss and leaves the store alone. -/
theorem get_missing (c : Cache) (now : Nat) (k : String)
    (h : c.lookup k = none) :
    c.get now k = (none, { c with misses := c.misses + 1 }) := by
  unfold Cache.get
  rw [h]

/-- C6: after set(k, v, ttl) at time now0, get(k) returns v at any time
before the stored expiry now0 + ttl; once the ttl has elapsed, get(k)
returns absent, removes the entry and counts the read as a miss, with no
explicit delete required; and set overwrites any existing entry,
resetting its expiry. -/
theorem c6_cache_ttl_semantics (c : Cache) (k : String) (v : JVal)
    (t now0 now1 now2 : Nat) (hlive : now1 < now0 + t)
    (hexp : now0 + t ≤ now2) :
    ((c.set now0 k v t).lookup k = some (v, now0 + t)) ∧
    (((c.set now0 k v t).get now1 k).1 = some v) ∧
    (((c.set now0 k v t).get now2 k).1 = none) ∧
    (((c.set now0 k v t).get now2 k).2.misses
        = (c.set now0 k v t).misses + 1) ∧
    (((c.set now0 k v t).get now2 k).2.lookup k = none) ∧
    ((((c.set now0 k v t).get now2 k).2.get now2 k).1 = none) := by
  have hl := lookup_set c now0 k v t
  have hnot : ¬ now2 < now0 + t := Nat.not_lt.mpr hexp
  have hgl := get_live (c.set now0 k v t) now1 k v (now0 + t) hl hlive
  have hge := get_expired (c.set now0 k v t) now2 k v (now0 + t) hl hnot
  have herase : (((c.set now0 k v t).get now2 k).2).lookup k = none := by
    rw [hge]
    simp [Cache.lookup, find_storeErase]
  refine ⟨hl, ?_, ?_, ?_, herase, ?_⟩
  · rw [hgl]
  · rw [hge]
  · rw [hge]
  · rw [get_missing _ now2 k herase]

/-- Witness for C6 at a concrete key, value, ttl and clock readings. -/
theorem c6_cache_ttl_semantics_witness :
    ((Cache.empty.set 5 "weather:x" (.str ['P']) 10).get 14 "weather:x").1
        = some (.str ['P']) ∧
    ((Cache.empty.set 5 "weather:x" (.str ['P']) 10).get 15 "weather:x").1
        = none := by
  have h := c6_cache_ttl_semantics Cache.empty "weather:x" (.str ['P'])
    10 5 14 15 (by decide) (by decide)
  exact ⟨h.2.1, h.2.2.1⟩

/-! ## Claim C4: policy rule order -/

/-- C4: validate_tool_call evaluates the blocked-content scan first, then
the tool allowlist, then the URL-domain check, short-circuiting on the
first violation; in particular a call whose query matches a blocked
pattern and whose tool is outside the allowlist reports the content
violation, not the allowlist violation. -/
theorem c4_policy_rule_order (pol : Policy) (toolName : String)
    (args : Args) (query : String) :
    (∀ e, checkQueryContent pol query = .error e →
        validateToolCall pol toolName args query = .error e) ∧
    (checkQueryContent pol query = .ok () →
      ∀ e, checkToolAllowed pol toolName = .error e →
        validateToolCall pol toolName args query = .error e) ∧
    (∀ p, pol.blockedPatterns.find? (patternHits (lowerStr query.toList))
            = some p →
      toolName ∉ pol.allowedTools →
        validateToolCall pol toolName args query
          = .error ("Query contains blocked content: " ++ p.raw)) := by
  refine ⟨?_, ?_, ?_⟩
  · intro e he
    simp [validateToolCall, he, Bind.bind, Except.bind]
  · intro hok e he
    simp [validateToolCall, hok, he, Bind.bind, Except.bind]
  · intro p hp _
    have he : checkQueryContent pol query
        = .error ("Query contains blocked content: " ++ p.raw) := by
      simp only [String.toList] at hp
      simp only [checkQueryContent, String.toList]
      rw [hp]
    simp [validateToolCall, he, Bind.bind, Except.bind]

/-- Witness for C4: a query matching the hack-into pattern together with
a tool outside the allowlist yields the content violation. -/
theorem c4_policy_rule_order_witness :
    validateToolCall defaultPolicy "evil_tool" []
        "Please hack into the server"
      = .error "Query contains blocked content: hack\\s+into" := by
  have h := (c4_policy_rule_order defaultPolicy "evil_tool" []
      "Please hack into the server").2.2
      ⟨"hack".toList, "into".toList, "hack\\s+into"⟩ (by decide) (by decide)
  exact h

/-! ## Claims C2, C3, C10: the tool wrapper -/

/-- A truthy cache-probe hit always carries a truthy value. -/
theorem cacheProbe_some_truthy (cache : Option Cache) (now : Nat)
    (key : String) (v : JVal)
    (h : (cacheProbe cache now key).1 = some v) : truthy v = true := by
  cases cache with
  | none => simp [cacheProbe] at h
  | some c =>
      rcases hg : c.get now key with ⟨hit, c1⟩
      cases hit with
      | none => simp [cacheProbe, hg] at h
      | some w =>
          by_cases ht : truthy w
          · simp [cacheProbe, hg, ht] at h
            rw [← h]
            exact ht
          · simp [cacheProbe, hg, ht] at h

/-- The core section always reports exactly one core invocation. -/
theorem runCore_coreCalls (name : String) (cache : Option Cache)
    (key : String) (core : Except String JVal) (now : Nat) :
    (runCore name cache key core now).coreCalls = 1 := by
  unfold runCore
  cases core <;> rfl

/-- C3: the decorated execute never raises to its caller, and when the
core implementation fails (its exception is the observed outcome of the
call), execute returns a ToolOutcome with error set to the failure
description, result null and cached false. -/
theorem c3_execute_never_raises (name : String) (cache : Option Cache)
    (kwargs : KwArgs) (core : Nat → Except String JVal) (now : Nat) :
    (∃ eff, executeTool name cache kwargs core now = (.ok eff, 1)) ∧
    (∀ e, core 0 = .error e →
      (cacheProbe cache now (String.mk (cacheKeyChars name.toList kwargs))).1
          = none →
      (executeTool name cache kwargs core now).1
        = .ok ⟨⟨name, none, 0, some e, false⟩,
            (cacheProbe cache now
              (String.mk (cacheKeyChars name.toList kwargs))).2, 1⟩) := by
  constructor
  · exact ⟨executeBody name cache kwargs (core 0) now, rfl⟩
  · intro e hcore hp
    have hpair : cacheProbe cache now
        (String.mk (cacheKeyChars name.toList kwargs))
        = (none, (cacheProbe cache now
            (String.mk (cacheKeyChars name.toList kwargs))).2) := by
      rw [← hp]
    show Except.ok (executeBody name cache kwargs (core 0) now) = _
    rw [executeBody]
    rw [hpair]
    simp only [runCore, hcore]

/-- Witness for C3 at a concrete failing core with no cache. -/
theorem c3_execute_never_raises_witness :
    (executeTool "web_search" none [("query".toList, .str "x".toList)]
        (fun _ => .error "ConnectTimeout") 7).1
      = .ok ⟨⟨"web_search", none, 0, some "ConnectTimeout", false⟩, none, 1⟩ := by
  have h := (c3_execute_never_raises "web_search" none
      [("query".toList, .str "x".toList)] (fun _ => .error "ConnectTimeout")
      7).2 "ConnectTimeout" rfl (by decide)
  exact h

/-- C2 is a code bug: the tenacity decorator on execute is configured
for up to 3 attempts with exponential backoff, but the body catches
every exception around the core call and returns an error ToolOutcome,
so tenacity never observes a raised exception: the decorated execute
always finishes on attempt 1 and consults only the first core behavior,
and a core that raises on every attempt is invoked exactly once. -/
theorem c2_retry_never_triggered :
    (∀ name cache kwargs core now,
      executeTool name cache kwargs core now
        = (.ok (executeBody name cache kwargs (core 0) now), 1)) ∧
    executeTool "web_search" none [] (fun _ => .error "boom") 0
      = (.ok ⟨⟨"web_search", none, 0, some "boom", false⟩, none, 1⟩, 1) ∧
    (executeBody "web_search" none [] (.error "boom") 0).coreCalls = 1 :=
  ⟨fun _ _ _ _ _ => rfl, rfl, rfl⟩

/-- C10: the cached-return branch requires a truthy stored value, so
every outcome with cached true carries a truthy, non-empty result; and a
falsy stored value is treated as a miss, the wrapper re-executing the
core exactly once. -/
theorem c10_cached_branch_truthy (name : String) (cache : Option Cache)
    (kwargs : KwArgs) (core : Except String JVal) (now : Nat) :
    ((executeBody name cache kwargs core now).result.cached = true →
      ∃ v, (executeBody name cache kwargs core now).result.result = some v
        ∧ truthy v = true) ∧
    (∀ c v c1, cache = some c →
      c.get now (String.mk (cacheKeyChars name.toList kwargs)) = (some v, c1) →
      truthy v = false →
      (executeBody name cache kwargs core now).result.cached = false ∧
      (executeBody name cache kwargs core now).coreCalls = 1) := by
  have heq : executeBody name cache kwargs core now
      = (match cacheProbe cache now
            (String.mk (cacheKeyChars name.toList kwargs)) with
         | (some v, c1) => ⟨⟨name, some v, 0, none, true⟩, c1, 0⟩
         | (none, c1) => runCore name c1
             (String.mk (cacheKeyChars name.toList kwargs)) core now) := rfl
  constructor
  · intro hc
    rcases hp : cacheProbe cache now
        (String.mk (cacheKeyChars name.toList kwargs)) with ⟨hit, c1⟩
    rw [heq, hp] at hc ⊢
    cases hit with
    | some v =>
        refine ⟨v, rfl, ?_⟩
        exact cacheProbe_some_truthy cache now _ v (by rw [hp])
    | none =>
        exfalso
        revert hc
        unfold runCore
        cases core <;> simp
  · intro c v c1 hcache hget ht
    subst hcache
    have hp : cacheProbe (some c) now
        (String.mk (cacheKeyChars name.toList kwargs)) = (none, some c1) := by
      simp only [String.toList] at hget
      simp [cacheProbe, hget, ht]
    rw [heq, hp]
    exact ⟨by unfold runCore; cases core <;> rfl,
           runCore_coreCalls name (some c1) _ core now⟩

/-- Witness for C10: a cache holding a truthy entry yields a cached
outcome with that value, and a cache holding a falsy entry (an empty
dict) forces re-execution. -/
theorem c10_cached_branch_truthy_witness :
    (∃ v, (executeBody "weather" (some ⟨[("weather:{}", .str ['P'], 9)], 0, 0⟩)
        [] (.ok (.str ['Q'])) 3).result.result = some v ∧ truthy v = true) ∧
    ((executeBody "weather" (some ⟨[("weather:{}", .obj [], 9)], 0, 0⟩)
        [] (.ok (.str ['Q'])) 3).result.cached = false ∧
     (executeBody "weather" (some ⟨[("weather:{}", .obj [], 9)], 0, 0⟩)
        [] (.ok (.str ['Q'])) 3).coreCalls = 1) := by
  constructor
  · exact (c10_cached_branch_truthy "weather"
      (some ⟨[("weather:{}", .str ['P'], 9)], 0, 0⟩) [] (.ok (.str ['Q'])) 3).1
      (by decide)
  · exact (c10_cached_branch_truthy "weather"
      (some ⟨[("weather:{}", .obj [], 9)], 0, 0⟩) [] (.ok (.str ['Q'])) 3).2
      ⟨[("weather:{}", .obj [], 9)], 0, 0⟩ (.obj [])
      ⟨[("weather:{}", .obj [], 9)], 1, 0⟩ rfl (by decide) (by decide)

/-! ## Claim C8: the calculator -/

/-- C8: the calculator evaluates only the supported operators via an AST
fold, never a general interpreter (a parsed but unsupported operator is
rejected with a ValueError); the round-trip examples evaluate as
specified; division by zero and malformed syntax yield success false
with a non-null human-readable error; and every outcome crosses the tool
boundary as a value: success false always carries an error and success
true never does. -/
theorem c8_calculator_semantics :
    ((calcImpl "15 * 234 + 567".toList).success = true ∧
     (calcImpl "15 * 234 + 567".toList).result = some (.int 4077)) ∧
    ((calcImpl "100 / 4".toList).success = true ∧
     (calcImpl "100 / 4".toList).result = some (.float 25)) ∧
    ((calcImpl "1 / 0".toList).success = false ∧
     (calcImpl "1 / 0".toList).error = some "division by zero") ∧
    ((calcImpl "invalid expression".toList).success = false ∧
     (calcImpl "invalid expression".toList).error.isSome = true) ∧
    (∀ s, ((calcImpl s).success = false → (calcImpl s).error.isSome = true) ∧
          ((calcImpl s).success = true → (calcImpl s).error = none)) ∧
    (∀ l r, evalExpr (.binop .floordiv l r)
        = .error (.valueErr "Unsupported operator: FloorDiv")) := by
  refine ⟨by decide, by decide, by decide, by decide, ?_, ?_⟩
  · intro s
    simp only [calcImpl]
    rcases hx : (do
        let t ← parseArith (stripChars s)
        evalExpr t : Except CalcErr Num) with e | v
    · cases e <;> exact ⟨fun _ => rfl, fun h => Bool.noConfusion h⟩
    · exact ⟨fun h => Bool.noConfusion h, fun _ => rfl⟩
  · intro l r
    simp [evalExpr]

/-- Witness for C8 at a further zero-divisor input. -/
theorem c8_calculator_semantics_witness :
    (calcImpl "5 % 0".toList).success = false ∧
    (calcImpl "5 % 0".toList).error.isSome = true ∧
    (calcImpl "2 + 3".toList).error = none :=
  ⟨by decide,
   (c8_calculator_semantics.2.2.2.2.1 "5 % 0".toList).1 (by decide),
   (c8_calculator_semantics.2.2.2.2.1 "2 + 3".toList).2 (by decide)⟩

/-! ## Claim C5: error outcomes at the execution layer -/

/-- C5: in single-shot execution a policy violation or an unregistered
tool name becomes an error ToolOutcome without calling any tool (the
outcome is a constant independent of every registered behavior, and for
an unknown tool its error is exactly the not-found message); nothing is
raised past the execution layer, and every planned invocation still
produces its own outcome. -/
theorem c5_rejections_become_outcomes (pol : Policy) (reg : Registry)
    (calls : List ToolCallM) (query : String) :
    ((executeToolsParallel pol reg calls query).length = calls.length) ∧
    (∀ i, (executeToolsParallel pol reg calls query).get? i
        = (calls.get? i).map (fun c => executeToolWithLimit pol reg c query)) ∧
    (∀ c e, validateToolCall pol c.name c.args query = .error e →
      executeToolWithLimit pol reg c query
        = ⟨c.name, none, 0, some ("Policy violation: " ++ e), false⟩) ∧
    (∀ c, validateToolCall pol c.name c.args query = .ok () →
      regGet reg c.name = none →
      executeToolWithLimit pol reg c query
        = ⟨c.name, none, 0, some ("Tool '" ++ c.name ++ "' not found"),
            false⟩) := by
  refine ⟨by simp [executeToolsParallel], ?_, ?_, ?_⟩
  · intro i
    simp [executeToolsParallel]
  · intro c e he
    simp [executeToolWithLimit, he]
  · intro c hok hreg
    simp [executeToolWithLimit, hok, hreg]

/-- Witness for C5: under the default policy, a blocked query, an
allowlisted-but-unregistered tool and a normal registered call each
produce their own outcome in one batch. -/
theorem c5_rejections_become_outcomes_witness :
    executeToolsParallel defaultPolicy
        [("weather", fun _ => ⟨"weather", some (.int 21), 0, none, false⟩)]
        [⟨"calculator", []⟩, ⟨"weather", []⟩]
        "What is the weather in Paris"
      = [⟨"calculator", none, 0, some "Tool 'calculator' not found", false⟩,
         ⟨"weather", some (.int 21), 0, none, false⟩] := by
  have h := c5_rejections_become_outcomes defaultPolicy
      [("weather", fun _ => ⟨"weather", some (.int 21), 0, none, false⟩)]
      [⟨"calculator", []⟩, ⟨"weather", []⟩]
      "What is the weather in Paris"
  have h0 := h.2.1 0
  have h1 := h.2.1 1
  have hcalc := h.2.2.2 ⟨"calculator", []⟩ rfl rfl
  have hrun : executeToolWithLimit defaultPolicy
      [("weather", fun _ => ⟨"weather", some (.int 21), 0, none, false⟩)]
      ⟨"weather", []⟩ "What is the weather in Paris"
      = ⟨"weather", some (.int 21), 0, none, false⟩ := rfl
  have hlen := h.1
  rcases hr : executeToolsParallel defaultPolicy
      [("weather", fun _ => ⟨"weather", some (.int 21), 0, none, false⟩)]
      [⟨"calculator", []⟩, ⟨"weather", []⟩]
      "What is the weather in Paris" with _ | ⟨r0, _ | ⟨r1, rest⟩⟩
  · rw [hr] at hlen
    simp at hlen
  · rw [hr] at hlen
    simp at hlen
  · rw [hr] at h0 h1 hlen
    simp at h0 h1 hlen
    subst hlen
    rw [h0, h1, hcalc, hrun]
    rfl

/-! ## Claim C9: streaming event order and terminality -/

/-- The tool loop never yields a terminal chunk. -/
theorem streamLoop_no_terminal (exec : ToolCallM → Except String ToolResult)
    (calls : List ToolCallM) :
    (streamLoop exec calls).1.all (fun x => !x.isTerminal) = true := by
  induction calls with
  | nil => rfl
  | cons c rest ih =>
      rw [streamLoop]
      cases hexec : exec c with
      | error e => rfl
      | ok r =>
          rcases hl : streamLoop exec rest with ⟨evs, exc⟩
          rw [hl] at ih
          simp at ih ⊢
          exact ⟨rfl, rfl, ih⟩

/-- When no invocation raises, the tool loop yields exactly the
tool_start and tool_result pairs in planner order and escapes nothing. -/
theorem streamLoop_ok (exec : ToolCallM → Except String ToolResult)
    (f : ToolCallM → ToolResult) :
    ∀ calls, (∀ c ∈ calls, exec c = .ok (f c)) →
    streamLoop exec calls
      = (calls.flatMap (fun c => [Event.toolStart c.name c.args,
          Event.toolResult (f c).tool_name (f c).latency_ms (f c).error
            (f c).cached]), none) := by
  intro calls hx
  induction calls with
  | nil => simp [streamLoop]
  | cons c rest ih =>
      have hc : exec c = .ok (f c) := hx c (by simp)
      have hrest := ih (fun d hd => hx d (by simp [hd]))
      rw [streamLoop, hc, hrest]
      simp

/-- Every streaming trace is a terminal-free prefix followed by exactly
one terminal chunk. -/
theorem queryStream_shape (planner : Except String (List ToolCallM))
    (exec : ToolCallM → Except String ToolResult)
    (synth : Except String Unit) (now : Nat) :
    ∃ pre t, queryStream planner exec synth now = pre ++ [t] ∧
      pre.all (fun x => !x.isTerminal) = true ∧
      Event.isTerminal t = true := by
  cases planner with
  | error e => exact ⟨_, .errorEv e now, rfl, rfl, rfl⟩
  | ok calls =>
      rcases hl : streamLoop exec calls with ⟨evs, exc⟩
      have hevs : evs.all (fun x => !x.isTerminal) = true := by
        have := streamLoop_no_terminal exec calls
        rw [hl] at this
        exact this
      cases exc with
      | some e =>
          have htr : queryStream (.ok calls) exec synth now
              = ([Event.status "Starting query processing...",
                  Event.status "Planning tool selection...",
                  Event.planning (calls.map (·.name)) calls.length,
                  Event.status "Executing tools..."] ++ evs)
                ++ [.errorEv e now] := by
            simp only [queryStream]
            rw [hl]
            simp
          refine ⟨_, .errorEv e now, htr, ?_, rfl⟩
          simp [List.all_append, Event.isTerminal]
          intro x hx
          simpa [Event.isTerminal] using List.all_eq_true.mp hevs x hx
      | none =>
          cases synth with
          | error e =>
              have htr : queryStream (.ok calls) exec (.error e) now
                  = ([Event.status "Starting query processing...",
                      Event.status "Planning tool selection...",
                      Event.planning (calls.map (·.name)) calls.length,
                      Event.status "Executing tools..."] ++ evs
                     ++ [Event.synthesis "Synthesizing final answer..."])
                    ++ [.errorEv e now] := by
                simp only [queryStream]
                rw [hl]
                simp
              refine ⟨_, .errorEv e now, htr, ?_, rfl⟩
              simp [List.all_append, Event.isTerminal]
              intro x hx
              simpa [Event.isTerminal] using List.all_eq_true.mp hevs x hx
          | ok _ =>
              have htr : queryStream (.ok calls) exec (.ok ()) now
                  = ([Event.status "Starting query processing...",
                      Event.status "Planning tool selection...",
                      Event.planning (calls.map (·.name)) calls.length,
                      Event.status "Executing tools..."] ++ evs
                     ++ [Event.synthesis "Synthesizing final answer..."])
                    ++ [.answer] := by
                simp only [queryStream]
                rw [hl]
                simp
              refine ⟨_, .answer, htr, ?_, rfl⟩
              simp [List.all_append, Event.isTerminal]
              intro x hx
              simpa [Event.isTerminal] using List.all_eq_true.mp hevs x hx

/-- C9: streaming emits, for every query, the fixed order status,
status, planning, status, then per invocation in planner order a
tool_start followed by its tool_result (sequentially, not in completion
order), then synthesis and a terminal answer; and in every run, with or
without a structural exception, the trace ends with exactly one terminal
chunk, an answer or an error with message and timestamp, never both. -/
theorem c9_stream_order_and_terminality
    (planner : Except String (List ToolCallM))
    (exec : ToolCallM → Except String ToolResult)
    (synth : Except String Unit) (now : Nat) :
    ((queryStream planner exec synth now).countP Event.isTerminal = 1) ∧
    (∃ t, (queryStream planner exec synth now).getLast? = some t ∧
      t.isTerminal = true) ∧
    (¬ (Event.answer ∈ queryStream planner exec synth now ∧
        ∃ e ts, Event.errorEv e ts ∈ queryStream planner exec synth now)) ∧
    (∀ (calls : List ToolCallM) (f : ToolCallM → ToolResult),
      planner = .ok calls → (∀ c ∈ calls, exec c = .ok (f c)) →
      synth = .ok () →
      queryStream planner exec synth now
        = [Event.status "Starting query processing...",
           Event.status "Planning tool selection...",
           Event.planning (calls.map (·.name)) calls.length,
           Event.status "Executing tools..."]
          ++ calls.flatMap (fun c => [Event.toolStart c.name c.args,
              Event.toolResult (f c).tool_name (f c).latency_ms (f c).error
                (f c).cached])
          ++ [Event.synthesis "Synthesizing final answer...",
              Event.answer]) := by
  obtain ⟨pre, t, htrace, hpre, ht⟩ :=
    queryStream_shape planner exec synth now
  have hprem : ∀ x ∈ pre, Event.isTerminal x = false := by
    intro x hx
    have := List.all_eq_true.mp hpre x hx
    simpa using this
  refine ⟨?_, ?_, ?_, ?_⟩
  · rw [htrace]
    rw [List.countP_append]
    have : pre.countP Event.isTerminal = 0 := by
      rw [List.countP_eq_zero]
      intro a ha
      simp [hprem a ha]
    simp [this, List.countP_cons, ht]
  · exact ⟨t, by rw [htrace, List.getLast?_concat], ht⟩
  · rintro ⟨hans, e, ts, herr⟩
    rw [htrace] at hans herr
    have hat : Event.answer = t := by
      rcases List.mem_append.mp hans with h | h
      · have := hprem _ h
        simp [Event.isTerminal] at this
      · simpa using h
    have het : Event.errorEv e ts = t := by
      rcases List.mem_append.mp herr with h | h
      · have := hprem _ h
        simp [Event.isTerminal] at this
      · simpa using h
    rw [← hat] at het
    exact Event.noConfusion het
  · intro calls f hplan hexec hsynth
    subst hplan
    subst hsynth
    simp only [queryStream]
    rw [streamLoop_ok exec f calls hexec]
    simp

/-- Witness for C9 on a weather-only plan. -/
theorem c9_stream_order_and_terminality_witness :
    queryStream (.ok [⟨"weather", [("location", .str "Paris".toList)]⟩])
        (fun _ => .ok ⟨"weather", some (.int 18), 4, none, false⟩)
        (.ok ()) 99
      = [Event.status "Starting query processing...",
         Event.status "Planning tool selection...",
         Event.planning ["weather"] 1,
         Event.status "Executing tools...",
         Event.toolStart "weather" [("location", .str "Paris".toList)],
         Event.toolResult "weather" 4 none false,
         Event.synthesis "Synthesizing final answer...",
         Event.answer] := by
  have h := (c9_stream_order_and_terminality
      (.ok [⟨"weather", [("location", .str "Paris".toList)]⟩])
      (fun _ => .ok ⟨"weather", some (.int 18), 4, none, false⟩)
      (.ok ()) 99).2.2.2
      [⟨"weather", [("location", .str "Paris".toList)]⟩]
      (fun _ => ⟨"weather", some (.int 18), 4, none, false⟩)
      rfl (fun c _ => rfl) rfl
  rw [h]
  rfl

/-! ## Claim C1: the concurrency cap -/

/-- Replacing one element changes a countP tally by the difference of
the old and new elements, stated without subtraction. -/
theorem countP_set (p : Phase → Bool) :
    ∀ (l : List Phase) (i : Nat) (a b : Phase), l.get? i = some b →
      (l.set i a).countP p + (if p b then 1 else 0)
        = l.countP p + (if p a then 1 else 0) := by
  intro l
  induction l with
  | nil => intro i a b hb; simp at hb
  | cons x t ih =>
      intro i a b hb
      cases i with
      | zero =>
          rw [List.get?_cons_zero] at hb
          injection hb with hb
          subst hb
          simp [List.countP_cons]
          omega
      | succ j =>
          rw [List.get?_cons_succ] at hb
          have := ih j a b hb
          simp [List.countP_cons]
          omega

/-- No task of the initial state holds a slot. -/
theorem initPhase_inFlight (cap : Nat) (work : List (Nat × ExitKind)) :
    inFlightCount (initPhase cap work) = 0 := by
  unfold inFlightCount initPhase
  simp [List.countP_map]
  intro a b _
  rfl

/-- One scheduler step preserves the slot-accounting identity. -/
theorem execStep_preserves {s s' : ExecPhase} (h : ExecStep s s')
    (cap : Nat) (hinv : inFlightCount s + s.avail = cap) :
    inFlightCount s' + s'.avail = cap := by
  cases h with
  | acquire a ts i w e hi =>
      have hc := countP_set Phase.inFlight ts i (.running w e) (.pending w e) hi
      unfold inFlightCount at hinv ⊢
      simp [Phase.inFlight] at hc hinv ⊢
      omega
  | work a ts i w e hi =>
      have hc := countP_set Phase.inFlight ts i (.running w e) (.running (w + 1) e) hi
      unfold inFlightCount at hinv ⊢
      simp [Phase.inFlight] at hc hinv ⊢
      omega
  | finish a ts i e hi =>
      have hc := countP_set Phase.inFlight ts i (.finished e) (.running 0 e) hi
      unfold inFlightCount at hinv ⊢
      simp [Phase.inFlight] at hc hinv ⊢
      omega

/-- C1: with limiter capacity cap, in every state the scheduler can
reach, the tasks in flight plus the free slots always equal cap, so at
no instant are more than cap tool executions in flight; and because the
slot is released on every exit path, a state in which all tasks have
finished, with any mix of exits, has all cap slots free again. -/
theorem c1_concurrency_cap (cap : Nat) (work : List (Nat × ExitKind))
    (s : ExecPhase) (h : ReachablePhase cap work s) :
    inFlightCount s + s.avail = cap ∧ inFlightCount s ≤ cap ∧
    ((∀ p ∈ s.tasks, ∃ e, p = Phase.finished e) → s.avail = cap) := by
  have hinv : inFlightCount s + s.avail = cap := by
    induction h with
    | refl =>
        have h0 := initPhase_inFlight cap work
        simp [initPhase] at h0 ⊢
        omega
    | tail _ hstep ih => exact execStep_preserves hstep cap ih
  refine ⟨hinv, by omega, ?_⟩
  intro hfin
  have hzero : inFlightCount s = 0 := by
    unfold inFlightCount
    rw [List.countP_eq_zero]
    intro p hp
    obtain ⟨e, he⟩ := hfin p hp
    subst he
    simp [Phase.inFlight]
  omega

/-- Witness for C1: capacity 3 with six one-step tasks; after three
acquisitions exactly three tasks are in flight and the theorem bounds
them by the capacity. -/
theorem c1_concurrency_cap_witness :
    inFlightCount ⟨0, [Phase.running 1 .success, Phase.running 1 .errorOutcome,
        Phase.running 1 .exc, Phase.pending 1 .success, Phase.pending 1 .success,
        Phase.pending 1 .success]⟩ = 3 ∧
    inFlightCount ⟨0, [Phase.running 1 .success, Phase.running 1 .errorOutcome,
        Phase.running 1 .exc, Phase.pending 1 .success, Phase.pending 1 .success,
        Phase.pending 1 .success]⟩ ≤ 3 := by
  constructor
  · decide
  · have h1 : ExecStep (initPhase 3 [(1, .success), (1, .errorOutcome),
        (1, .exc), (1, .success), (1, .success), (1, .success)])
        ⟨2, [Phase.running 1 .success, Phase.pending 1 .errorOutcome,
            Phase.pending 1 .exc, Phase.pending 1 .success,
            Phase.pending 1 .success, Phase.pending 1 .success]⟩ :=
      ExecStep.acquire 2 _ 0 1 .success rfl
    have h2 : ExecStep ⟨2, [Phase.running 1 .success, Phase.pending 1 .errorOutcome,
        Phase.pending 1 .exc, Phase.pending 1 .success,
        Phase.pending 1 .success, Phase.pending 1 .success]⟩
        ⟨1, [Phase.running 1 .success, Phase.running 1 .errorOutcome,
            Phase.pending 1 .exc, Phase.pending 1 .success,
            Phase.pending 1 .success, Phase.pending 1 .success]⟩ :=
      ExecStep.acquire 1 _ 1 1 .errorOutcome rfl
    have h3 : ExecStep ⟨1, [Phase.running 1 .success, Phase.running 1 .errorOutcome,
        Phase.pending 1 .exc, Phase.pending 1 .success,
        Phase.pending 1 .success, Phase.pending 1 .success]⟩
        ⟨0, [Phase.running 1 .success, Phase.running 1 .errorOutcome,
            Phase.running 1 .exc, Phase.pending 1 .success,
            Phase.pending 1 .success, Phase.pending 1 .success]⟩ :=
      ExecStep.acquire 0 _ 2 1 .exc rfl
    have hreach : ReachablePhase 3 [(1, .success), (1, .errorOutcome),
        (1, .exc), (1, .success), (1, .success), (1, .success)]
        ⟨0, [Phase.running 1 .success, Phase.running 1 .errorOutcome,
            Phase.running 1 .exc, Phase.pending 1 .success,
            Phase.pending 1 .success, Phase.pending 1 .success]⟩ :=
      Relation.ReflTransGen.head h1 (Relation.ReflTransGen.head h2
        (Relation.ReflTransGen.head h3 Relation.ReflTransGen.refl))
    exact (c1_concurrency_cap 3 _ _ hreach).2.1

/-! ## Claim C7, part 1: decimal digits -/

/-- Appending a digit multiplies the accumulated value by ten. -/
theorem digitsToNat_append (l : List Char) (c : Char) :
    digitsToNat (l ++ [c]) = 10 * digitsToNat l + digitVal c := by
  simp [digitsToNat, List.foldl_append]
  omega

/-- The digit character of d reads back as d. -/
theorem digitVal_char (d : Nat) (h : d < 10) :
    digitVal (Char.ofNat (48 + d)) = d := by
  have hv : Nat.isValidChar (48 + d) := Or.inl (by omega)
  simp [digitVal, Char.ofNat, hv, Char.ofNatAux, Char.toNat, UInt32.toNat,
    BitVec.toNat_ofNatLt]

/-- The digit character of d is a digit. -/
theorem isDigit_char (d : Nat) (h : d < 10) :
    (Char.ofNat (48 + d)).isDigit = true := by
  interval_cases d <;> decide

/-- Reading back the fueled digit expansion recovers the number. -/
theorem natDigitsF_roundtrip :
    ∀ fuel n, n < fuel → digitsToNat (natDigitsF fuel n) = n := by
  intro fuel
  induction fuel with
  | zero => intro n hn; omega
  | succ f ih =>
      intro n hn
      rw [natDigitsF]
      by_cases h10 : n < 10
      · simp [h10, digitsToNat]
        have := digitVal_char n h10
        simpa [digitsToNat] using this
      · simp [h10]
        rw [digitsToNat_append]
        have hlt : n / 10 < f := by omega
        rw [ih (n / 10) hlt, digitVal_char (n % 10) (by omega)]
        omega

/-- Reading back the digits of a natural number recovers it. -/
theorem natDigits_roundtrip (n : Nat) : digitsToNat (natDigits n) = n :=
  natDigitsF_roundtrip (n + 1) n (Nat.lt_succ_self n)

/-- Decimal expansions are injective. -/
theorem natDigits_inj {m n : Nat} (h : natDigits m = natDigits n) : m = n := by
  have := natDigits_roundtrip m
  rw [h, natDigits_roundtrip n] at this
  omega

/-- Every character of a digit expansion is a digit. -/
theorem natDigitsF_digits :
    ∀ fuel n c, c ∈ natDigitsF fuel n → c.isDigit = true := by
  intro fuel
  induction fuel with
  | zero => intro n c hc; simp [natDigitsF] at hc
  | succ f ih =>
      intro n c hc
      rw [natDigitsF] at hc
      by_cases h10 : n < 10
      · simp [h10] at hc
        subst hc
        exact isDigit_char n h10
      · simp [h10] at hc
        rcases hc with hc | hc
        · exact ih (n / 10) c hc
        · subst hc
          exact isDigit_char (n % 10) (by omega)

/-- Digit expansions are never empty. -/
theorem natDigits_ne_nil (n : Nat) : natDigits n ≠ [] := by
  unfold natDigits natDigitsF
  by_cases h10 : n < 10 <;> simp [h10]

/-- Integer serializations are never empty. -/
theorem intChars_ne_nil (n : Int) : intChars n ≠ [] := by
  unfold intChars
  by_cases hn : n < 0 <;> simp [hn, natDigits_ne_nil]

/-- A run of digit characters followed by a non-digit is uniquely
delimited. -/
theorem digitRun_det :
    ∀ (d1 d2 t1 t2 : List Char),
      (∀ c ∈ d1, c.isDigit = true) → (∀ c ∈ d2, c.isDigit = true) →
      (∀ c, t1.head? = some c → c.isDigit = false) →
      (∀ c, t2.head? = some c → c.isDigit = false) →
      d1 ++ t1 = d2 ++ t2 → d1 = d2 ∧ t1 = t2 := by
  intro d1
  induction d1 with
  | nil =>
      intro d2 t1 t2 _ hd2 ht1 _ht2 heq
      cases d2 with
      | nil => exact ⟨rfl, heq⟩
      | cons c d2' =>
          exfalso
          simp at heq
          have hdig : c.isDigit = true := hd2 c (by simp)
          have hnot : c.isDigit = false := ht1 c (by rw [heq]; rfl)
          simp_all
  | cons c1 d1' ih =>
      intro d2 t1 t2 hd1 hd2 ht1 ht2 heq
      cases d2 with
      | nil =>
          exfalso
          simp at heq
          have hdig : c1.isDigit = true := hd1 c1 (by simp)
          have hnot : c1.isDigit = false := ht2 c1 (by rw [← heq]; rfl)
          simp_all
      | cons c2 d2' =>
          simp at heq
          obtain ⟨hc, hrest⟩ := heq
          subst hc
          obtain ⟨h1, h2⟩ := ih d2' t1 t2 (fun c hc => hd1 c (by simp [hc]))
            (fun c hc => hd2 c (by simp [hc])) ht1 ht2 hrest
          exact ⟨by rw [h1], h2⟩

/-- Reversed integer serializations followed by Good contexts are
uniquely delimited. -/
theorem revInt_det (m n : Int) (r1 r2 : List Char)
    (hg1 : Good r1) (hg2 : Good r2)
    (heq : (intChars m).reverse ++ r1 = (intChars n).reverse ++ r2) :
    m = n ∧ r1 = r2 := by
  have hdigs : ∀ k : Nat, ∀ c ∈ (natDigits k).reverse, c.isDigit = true :=
    fun k c hc => natDigitsF_digits _ _ c (List.mem_reverse.mp hc)
  have hdash : ∀ r : List Char, ∀ c : Char,
      (('-' :: r).head? = some c) → c.isDigit = false := by
    intro r c hc
    simp at hc
    subst hc
    decide
  unfold intChars at heq
  by_cases hm : m < 0 <;> by_cases hn : n < 0 <;> simp [hm, hn] at heq
  · obtain ⟨hd, ht⟩ := digitRun_det ((natDigits (-m).toNat).reverse)
      ((natDigits (-n).toNat).reverse) ('-' :: r1) ('-' :: r2)
      (hdigs _) (hdigs _) (hdash r1) (hdash r2) (by simpa using heq)
    have hmn : (-m).toNat = (-n).toNat :=
      natDigits_inj (List.reverse_injective hd)
    simp at ht
    exact ⟨by omega, ht⟩
  · exfalso
    obtain ⟨hd, ht⟩ := digitRun_det ((natDigits (-m).toNat).reverse)
      ((natDigits n.toNat).reverse) ('-' :: r1) r2
      (hdigs _) (hdigs _) (hdash r1)
      (fun c hc => (hg2 c hc).2.1) (by simpa using heq)
    exact (hg2 '-' (by rw [← ht]; rfl)).2.2 rfl
  · exfalso
    obtain ⟨hd, ht⟩ := digitRun_det ((natDigits m.toNat).reverse)
      ((natDigits (-n).toNat).reverse) r1 ('-' :: r2)
      (hdigs _) (hdigs _) (fun c hc => (hg1 c hc).2.1)
      (hdash r2) (by simpa using heq)
    exact (hg1 '-' (by rw [ht]; rfl)).2.2 rfl
  · obtain ⟨hd, ht⟩ := digitRun_det ((natDigits m.toNat).reverse)
      ((natDigits n.toNat).reverse) r1 r2
      (hdigs _) (hdigs _) (fun c hc => (hg1 c hc).2.1)
      (fun c hc => (hg2 c hc).2.1) heq
    have hmn : m.toNat = n.toNat := natDigits_inj (List.reverse_injective hd)
    exact ⟨by omega, ht⟩

/-! ## Claim C7, part 2: string escaping -/

/-- Reversing an escaped body gives the reversed-unit expansion of the
reversed body. -/
theorem escape_reverse (s : List Char) :
    (escape s).reverse = escRev s.reverse := by
  induction s with
  | nil => rfl
  | cons c t ih =>
      simp [escape, escRev] at ih ⊢
      rw [ih]

/-- A reversed escaped body closed by its opening quote is uniquely
delimited when the context cannot start with a backslash. -/
theorem escRev_det :
    ∀ (t1 t2 r1 r2 : List Char),
      r1.head? ≠ some '\\' → r2.head? ≠ some '\\' →
      escRev t1 ++ '"' :: r1 = escRev t2 ++ '"' :: r2 →
      t1 = t2 ∧ r1 = r2 := by
  intro t1
  induction t1 with
  | nil =>
      intro t2 r1 r2 h1 _h2 heq
      cases t2 with
      | nil =>
          simp [escRev] at heq
          exact ⟨rfl, heq⟩
      | cons c2 t2' =>
          exfalso
          by_cases hq : c2 = '"'
          · subst hq
            simp [escRev, escChar] at heq
            exact h1 (by rw [heq]; rfl)
          · by_cases hb : c2 = '\\'
            · subst hb
              simp [escRev, escChar] at heq
            · simp [escRev, escChar, hq, hb] at heq
              exact hq heq.1.symm
  | cons c1 t1' ih =>
      intro t2 r1 r2 h1 h2 heq
      cases t2 with
      | nil =>
          exfalso
          by_cases hq : c1 = '"'
          · subst hq
            simp [escRev, escChar] at heq
            exact h2 (by rw [← heq]; rfl)
          · by_cases hb : c1 = '\\'
            · subst hb
              simp [escRev, escChar] at heq
            · simp [escRev, escChar, hq, hb] at heq
      | cons c2 t2' =>
          by_cases hq1 : c1 = '"' <;> by_cases hq2 : c2 = '"'
          · subst hq1
            subst hq2
            simp [escRev, escChar] at heq
            obtain ⟨ht, hr⟩ := ih t2' r1 r2 h1 h2 heq
            exact ⟨by rw [ht], hr⟩
          · exfalso
            subst hq1
            by_cases hb2 : c2 = '\\'
            · subst hb2
              simp [escRev, escChar] at heq
            · simp [escRev, escChar, hq2, hb2] at heq
              exact hq2 heq.1.symm
          · exfalso
            subst hq2
            by_cases hb1 : c1 = '\\'
            · subst hb1
              simp [escRev, escChar] at heq
            · simp [escRev, escChar, hq1, hb1] at heq
          · by_cases hb1 : c1 = '\\' <;> by_cases hb2 : c2 = '\\'
            · subst hb1
              subst hb2
              simp [escRev, escChar] at heq
              obtain ⟨ht, hr⟩ := ih t2' r1 r2 h1 h2 heq
              exact ⟨by rw [ht], hr⟩
            · exfalso
              subst hb1
              simp [escRev, escChar, hq2, hb2] at heq
              exact hb2 heq.1.symm
            · exfalso
              subst hb2
              simp [escRev, escChar, hq1, hb1] at heq
            · simp [escRev, escChar, hq1, hb1, hq2, hb2] at heq
              obtain ⟨hc, hrest⟩ := heq
              subst hc
              obtain ⟨ht, hr⟩ := ih t2' r1 r2 h1 h2 hrest
              exact ⟨by rw [ht], hr⟩

/-! ## Claim C7, part 3: shapes and head classification -/

/-- A Good context with an explicitly safe head character. -/
theorem good_cons (c : Char) (r : List Char) (h1 : c ≠ '\\')
    (h2 : c.isDigit = false) (h3 : c ≠ '-') : Good (c :: r) := by
  intro c' hc'
  simp at hc'
  subst hc'
  exact ⟨h1, h2, h3⟩

/-- The empty context is Good. -/
theorem good_nil : Good [] := by
  intro c hc
  simp at hc

/-- A member of an optional last element. -/
theorem mem_of_getLast_eq {l : List Char} {a : Char}
    (h : l.getLast? = some a) : a ∈ l := by
  have hx : a ∈ l.getLast? := by rw [h]; rfl
  obtain ⟨hne, heq⟩ := List.mem_getLast?_eq_getLast hx
  rw [heq]
  exact List.getLast_mem hne

/-- The reversed quoted string literal. -/
theorem strLit_reverse (s : List Char) :
    (strLit s).reverse = '"' :: (escRev s.reverse ++ ['"']) := by
  simp [strLit, escape_reverse]

/-- Serializations are never empty. -/
theorem dumps_ne_nil : ∀ v : JVal, dumps v ≠ [] := by
  intro v
  cases v with
  | bool b => cases b <;> simp [dumps, boolChars]
  | int n => simpa [dumps] using intChars_ne_nil n
  | _ => simp [dumps, strLit, nullChars]

/-- Equal appends with nonempty left parts have equal head characters. -/
theorem heads_eq (l1 l2 r1 r2 : List Char) (heq : l1 ++ r1 = l2 ++ r2)
    (h1 : l1 ≠ []) (h2 : l2 ≠ []) : l1.head? = l2.head? := by
  cases l1 with
  | nil => exact absurd rfl h1
  | cons a t1 =>
      cases l2 with
      | nil => exact absurd rfl h2
      | cons b t2 =>
          simp at heq ⊢
          exact heq.1

/-- Digits are classified as digits. -/
theorem charTag_digit (c : Char) (h : c.isDigit = true) : charTag c = 2 := by
  have hl : c ≠ 'l' := by rintro rfl; simp at h
  have he : c ≠ 'e' := by rintro rfl; simp at h
  simp [charTag, hl, he, h]

/-- Structural tags never exceed 6. -/
theorem tag_le (v : JVal) : tag v ≤ 6 := by
  cases v <;> simp [tag]

/-- The final serialized character classifies the constructor of a
canonical value. -/
theorem tag_of_head (v : JVal) (hc : CanonV v) (c : Char)
    (hhead : ((dumps v).reverse).head? = some c) : charTag c = tag v := by
  rw [List.head?_reverse] at hhead
  cases v with
  | null =>
      simp [dumps, nullChars] at hhead
      subst hhead
      decide
  | bool b =>
      cases b <;> simp [dumps, boolChars] at hhead <;> (subst hhead; decide)
  | int n =>
      have hdig : c.isDigit = true := by
        unfold dumps intChars at hhead
        by_cases hn : n < 0
        · simp [hn] at hhead
          rw [show ('-' :: natDigits (-n).toNat) = ['-'] ++ natDigits (-n).toNat
                from rfl,
              List.getLast?_append_of_ne_nil _ (natDigits_ne_nil _)] at hhead
          exact natDigitsF_digits _ _ c (mem_of_getLast_eq hhead)
        · simp [hn] at hhead
          exact natDigitsF_digits _ _ c (mem_of_getLast_eq hhead)
      rw [charTag_digit c hdig]
      rfl

  | str s =>
      have : dumps (.str s) = ('"' :: escape s) ++ ['"'] := by simp [dumps, strLit]
      rw [this, List.getLast?_concat] at hhead
      injection hhead with hhead
      subst hhead
      rfl
  | float q => exact absurd hc (by simp [CanonV])
  | arr vs =>
      have : dumps (.arr vs)
          = ('[' :: sepConcat [',', ' '] (dumpsList vs)) ++ [']'] := by
        simp [dumps]
      rw [this, List.getLast?_concat] at hhead
      injection hhead with hhead
      subst hhead
      rfl
  | obj kvs =>
      have : dumps (.obj kvs)
          = ('{' :: sepConcat [',', ' '] (dumpsMembers kvs)) ++ ['}'] := by
        simp [dumps]
      rw [this, List.getLast?_concat] at hhead
      injection hhead with hhead
      subst hhead
      rfl

/-- Elementwise reading of array canonicity. -/
theorem canonL_iff : ∀ vs : List JVal, CanonL vs ↔ ∀ v ∈ vs, CanonV v := by
  intro vs
  induction vs with
  | nil => simp [CanonL]
  | cons v t ih =>
      rw [CanonL, ih]
      constructor
      · rintro ⟨h1, h2⟩ w hw
        rcases List.mem_cons.mp hw with hw | hw
        · exact hw ▸ h1
        · exact h2 w hw
      · intro h
        exact ⟨h v (by simp), fun w hw => h w (by simp [hw])⟩

/-- Elementwise reading of object-value canonicity. -/
theorem canonO_iff : ∀ kvs : List (List Char × JVal),
    CanonO kvs ↔ ∀ kv ∈ kvs, CanonV kv.2 := by
  intro kvs
  induction kvs with
  | nil => simp [CanonO]
  | cons kv t ih =>
      rw [CanonO, ih]
      constructor
      · rintro ⟨h1, h2⟩ w hw
        rcases List.mem_cons.mp hw with hw | hw
        · exact hw ▸ h1
        · exact h2 w hw
      · intro h
        exact ⟨h kv (by simp), fun w hw => h w (by simp [hw])⟩

/-! ## Claim C7, part 4: separated lists of serializations -/

/-- Array serializations distribute over append. -/
theorem dumpsList_append : ∀ l1 l2 : List JVal,
    dumpsList (l1 ++ l2) = dumpsList l1 ++ dumpsList l2 := by
  intro l1 l2
  induction l1 with
  | nil => simp [dumpsList]
  | cons v t ih => simp [dumpsList, ih]

/-- Object member serializations distribute over append. -/
theorem dumpsMembers_append : ∀ l1 l2 : List (List Char × JVal),
    dumpsMembers (l1 ++ l2) = dumpsMembers l1 ++ dumpsMembers l2 := by
  intro l1 l2
  induction l1 with
  | nil => simp [dumpsMembers]
  | cons kv t ih =>
      obtain ⟨k, v⟩ := kv
      simp [dumpsMembers, ih]

/-- Nonempty lists serialize to nonempty item lists. -/
theorem dumpsList_ne_nil {M : List JVal} (h : M ≠ []) :
    dumpsList M ≠ [] := by
  cases M with
  | nil => exact absurd rfl h
  | cons v t => simp [dumpsList]

/-- Nonempty member lists serialize to nonempty item lists. -/
theorem dumpsMembers_ne_nil {M : List (List Char × JVal)} (h : M ≠ []) :
    dumpsMembers M ≠ [] := by
  cases M with
  | nil => exact absurd rfl h
  | cons kv t =>
      obtain ⟨k, v⟩ := kv
      simp [dumpsMembers]

/-- Separating one more item appends the separator and the item. -/
theorem sepConcat_concat (sep : List Char) :
    ∀ (L : List (List Char)) (x : List Char), L ≠ [] →
      sepConcat sep (L ++ [x]) = sepConcat sep L ++ sep ++ x := by
  intro L
  induction L with
  | nil => intro x h; exact absurd rfl h
  | cons y t ih =>
      intro x _
      cases t with
      | nil => simp [sepConcat]
      | cons z t' =>
          have := ih x (by simp)
          simp [sepConcat] at this ⊢
          rw [this]

/-- Reversed shape of an array body ending in one element, empty
prefix. -/
theorem arrRev_nil (w : JVal) (r : List Char) :
    (sepConcat [',', ' '] (dumpsList ([] ++ [w]))).reverse ++ '[' :: r
      = (dumps w).reverse ++ '[' :: r := by
  simp [dumpsList, sepConcat]

/-- Reversed shape of an array body ending in one element, nonempty
prefix. -/
theorem arrRev_cons (M : List JVal) (w : JVal) (r : List Char)
    (h : M ≠ []) :
    (sepConcat [',', ' '] (dumpsList (M ++ [w]))).reverse ++ '[' :: r
      = (dumps w).reverse ++ (' ' :: ',' ::
          ((sepConcat [',', ' '] (dumpsList M)).reverse ++ '[' :: r)) := by
  rw [dumpsList_append, show dumpsList [w] = [dumps w] from rfl,
      sepConcat_concat _ _ _ (dumpsList_ne_nil h)]
  simp

/-- Reversed shape of an object body ending in one member, empty
prefix. -/
theorem objRev_nil (k : List Char) (v : JVal) (r : List Char) :
    (sepConcat [',', ' '] (dumpsMembers ([] ++ [(k, v)]))).reverse ++ '{' :: r
      = (dumps v).reverse ++ (' ' :: ':' ::
          ('"' :: (escRev k.reverse ++ ('"' :: '{' :: r)))) := by
  simp [dumpsMembers, sepConcat, strLit, escape_reverse]

/-- Reversed shape of an object body ending in one member, nonempty
prefix. -/
theorem objRev_cons (M : List (List Char × JVal)) (k : List Char)
    (v : JVal) (r : List Char) (h : M ≠ []) :
    (sepConcat [',', ' '] (dumpsMembers (M ++ [(k, v)]))).reverse ++ '{' :: r
      = (dumps v).reverse ++ (' ' :: ':' ::
          ('"' :: (escRev k.reverse ++ ('"' :: ' ' :: ',' ::
            ((sepConcat [',', ' '] (dumpsMembers M)).reverse ++ '{' :: r))))) := by
  rw [dumpsMembers_append,
      show dumpsMembers [(k, v)] = [strLit k ++ ':' :: ' ' :: dumps v] from rfl,
      sepConcat_concat _ _ _ (dumpsMembers_ne_nil h)]
  simp [strLit, escape_reverse]

/-- Determinism of reversed array bodies, given determinism of the
elements. -/
theorem sepArr_det :
    ∀ (vs1 : List JVal), (∀ w ∈ vs1, DetV w) →
    ∀ (vs2 : List JVal) (r1 r2 : List Char),
      CanonL vs1 → CanonL vs2 →
      (sepConcat [',', ' '] (dumpsList vs1)).reverse ++ '[' :: r1
        = (sepConcat [',', ' '] (dumpsList vs2)).reverse ++ '[' :: r2 →
      vs1 = vs2 ∧ r1 = r2 := by
  intro vs1
  induction vs1 using List.reverseRecOn with
  | nil =>
      intro _ vs2 r1 r2 _ hc2 heq
      rcases List.eq_nil_or_concat vs2 with h | ⟨M2, w2, h⟩
      · subst h
        simp [dumpsList, sepConcat] at heq
        exact ⟨rfl, heq⟩
      · exfalso
        subst h
        rw [List.concat_eq_append] at heq hc2
        have hw2 : CanonV w2 := (canonL_iff _).mp hc2 w2 (by simp)
        have hshape : ∃ X2, (sepConcat [',', ' '] (dumpsList (M2 ++ [w2]))).reverse
            ++ '[' :: r2 = (dumps w2).reverse ++ X2 := by
          by_cases hM2 : M2 = []
          · subst hM2
            exact ⟨_, arrRev_nil w2 r2⟩
          · exact ⟨_, arrRev_cons M2 w2 r2 hM2⟩
        obtain ⟨X2, hX2⟩ := hshape
        rw [hX2] at heq
        simp [dumpsList, sepConcat] at heq
        have hhead : ('[' :: r1).head? = ((dumps w2).reverse).head? :=
          heads_eq ('[' :: r1) ((dumps w2).reverse) [] X2
            (by simpa using heq) (by simp) (by simp [dumps_ne_nil])
        obtain ⟨c, hc⟩ : ∃ c, ((dumps w2).reverse).head? = some c := by
          cases hrev : ((dumps w2).reverse) with
          | nil => exact absurd (List.reverse_eq_nil_iff.mp hrev) (dumps_ne_nil w2)
          | cons a t => exact ⟨a, by simp⟩
        have htag := tag_of_head w2 hw2 c hc
        rw [← hhead] at hc
        simp at hc
        subst hc
        have := tag_le w2
        simp [charTag] at htag
        omega
  | append_singleton M1 w1 ih =>
      intro hdet vs2 r1 r2 hc1 hc2 heq
      have hw1 : CanonV w1 := (canonL_iff _).mp hc1 w1 (by simp)
      have hdet1 : DetV w1 := hdet w1 (by simp)
      rcases List.eq_nil_or_concat vs2 with h | ⟨M2, w2, h⟩
      · exfalso
        subst h
        have hshape : ∃ X1, (sepConcat [',', ' '] (dumpsList (M1 ++ [w1]))).reverse
            ++ '[' :: r1 = (dumps w1).reverse ++ X1 := by
          by_cases hM1 : M1 = []
          · subst hM1
            exact ⟨_, arrRev_nil w1 r1⟩
          · exact ⟨_, arrRev_cons M1 w1 r1 hM1⟩
        obtain ⟨X1, hX1⟩ := hshape
        rw [hX1] at heq
        simp [dumpsList, sepConcat] at heq
        have hhead : ((dumps w1).reverse).head? = ('[' :: r2).head? :=
          heads_eq ((dumps w1).reverse) ('[' :: r2) X1 []
            (by simpa using heq) (by simp [dumps_ne_nil]) (by simp)
        obtain ⟨c, hc⟩ : ∃ c, ((dumps w1).reverse).head? = some c := by
          cases hrev : ((dumps w1).reverse) with
          | nil => exact absurd (List.reverse_eq_nil_iff.mp hrev) (dumps_ne_nil w1)
          | cons a t => exact ⟨a, by simp⟩
        have htag := tag_of_head w1 hw1 c hc
        rw [hc] at hhead
        simp at hhead
        subst hhead
        have := tag_le w1
        simp [charTag] at htag
        omega
      · subst h
        rw [List.concat_eq_append] at hc2 ⊢
        rw [List.concat_eq_append] at heq
        have hw2 : CanonV w2 := (canonL_iff _).mp hc2 w2 (by simp)
        by_cases hM1 : M1 = [] <;> by_cases hM2 : M2 = []
        · subst hM1
          subst hM2
          rw [arrRev_nil, arrRev_nil] at heq
          obtain ⟨hw, hr⟩ := hdet1 w2 ('[' :: r1) ('[' :: r2) hw1 hw2
            (good_cons '[' r1 (by decide) (by decide) (by decide))
            (good_cons '[' r2 (by decide) (by decide) (by decide)) heq
          simp at hr
          exact ⟨by rw [hw], hr⟩
        · exfalso
          subst hM1
          rw [arrRev_nil, arrRev_cons M2 w2 r2 hM2] at heq
          obtain ⟨_, hr⟩ := hdet1 w2 _ _ hw1 hw2
            (good_cons '[' r1 (by decide) (by decide) (by decide))
            (good_cons ' ' _ (by decide) (by decide) (by decide)) heq
          simp at hr
        · exfalso
          subst hM2
          rw [arrRev_cons M1 w1 r1 hM1, arrRev_nil] at heq
          obtain ⟨_, hr⟩ := hdet1 w2 _ _ hw1 hw2
            (good_cons ' ' _ (by decide) (by decide) (by decide))
            (good_cons '[' r2 (by decide) (by decide) (by decide)) heq
          simp at hr
        · rw [arrRev_cons M1 w1 r1 hM1, arrRev_cons M2 w2 r2 hM2] at heq
          obtain ⟨hw, hr⟩ := hdet1 w2 _ _ hw1 hw2
            (good_cons ' ' _ (by decide) (by decide) (by decide))
            (good_cons ' ' _ (by decide) (by decide) (by decide)) heq
          simp only [List.cons.injEq, true_and] at hr
          obtain ⟨hM, hrr⟩ := ih (fun w hw => hdet w (by simp [hw]))
            M2 r1 r2
            ((canonL_iff _).mpr (fun v hv => (canonL_iff _).mp hc1 v (by simp [hv])))
            ((canonL_iff _).mpr (fun v hv => (canonL_iff _).mp hc2 v (by simp [hv])))
            hr
          exact ⟨by rw [hM, hw], hrr⟩

/-- Determinism of reversed object bodies, given determinism of the
member values. -/
theorem sepObj_det :
    ∀ (kvs1 : List (List Char × JVal)), (∀ kv ∈ kvs1, DetV kv.2) →
    ∀ (kvs2 : List (List Char × JVal)) (r1 r2 : List Char),
      CanonO kvs1 → CanonO kvs2 →
      (sepConcat [',', ' '] (dumpsMembers kvs1)).reverse ++ '{' :: r1
        = (sepConcat [',', ' '] (dumpsMembers kvs2)).reverse ++ '{' :: r2 →
      kvs1 = kvs2 ∧ r1 = r2 := by
  intro kvs1
  induction kvs1 using List.reverseRecOn with
  | nil =>
      intro _ kvs2 r1 r2 _ hc2 heq
      rcases List.eq_nil_or_concat kvs2 with h | ⟨M2, kv2, h⟩
      · subst h
        simp [dumpsMembers, sepConcat] at heq
        exact ⟨rfl, heq⟩
      · exfalso
        subst h
        rw [List.concat_eq_append] at heq hc2
        obtain ⟨k2, v2⟩ := kv2
        have hw2 : CanonV v2 := (canonO_iff _).mp hc2 (k2, v2) (by simp)
        have hshape : ∃ X2, (sepConcat [',', ' ']
              (dumpsMembers (M2 ++ [(k2, v2)]))).reverse ++ '{' :: r2
            = (dumps v2).reverse ++ X2 := by
          by_cases hM2 : M2 = []
          · subst hM2
            exact ⟨_, objRev_nil k2 v2 r2⟩
          · exact ⟨_, objRev_cons M2 k2 v2 r2 hM2⟩
        obtain ⟨X2, hX2⟩ := hshape
        rw [hX2] at heq
        simp [dumpsMembers, sepConcat] at heq
        have hhead : ('{' :: r1).head? = ((dumps v2).reverse).head? :=
          heads_eq ('{' :: r1) ((dumps v2).reverse) [] X2
            (by simpa using heq) (by simp) (by simp [dumps_ne_nil])
        obtain ⟨c, hc⟩ : ∃ c, ((dumps v2).reverse).head? = some c := by
          cases hrev : ((dumps v2).reverse) with
          | nil => exact absurd (List.reverse_eq_nil_iff.mp hrev) (dumps_ne_nil v2)
          | cons a t => exact ⟨a, by simp⟩
        have htag := tag_of_head v2 hw2 c hc
        rw [← hhead] at hc
        simp at hc
        subst hc
        have := tag_le v2
        simp [charTag] at htag
        omega
  | append_singleton M1 kv1 ih =>
      intro hdet kvs2 r1 r2 hc1 hc2 heq
      obtain ⟨k1, v1⟩ := kv1
      have hw1 : CanonV v1 := (canonO_iff _).mp hc1 (k1, v1) (by simp)
      have hdet1 : DetV v1 := hdet (k1, v1) (by simp)
      rcases List.eq_nil_or_concat kvs2 with h | ⟨M2, kv2, h⟩
      · exfalso
        subst h
        have hshape : ∃ X1, (sepConcat [',', ' ']
              (dumpsMembers (M1 ++ [(k1, v1)]))).reverse ++ '{' :: r1
            = (dumps v1).reverse ++ X1 := by
          by_cases hM1 : M1 = []
          · subst hM1
            exact ⟨_, objRev_nil k1 v1 r1⟩
          · exact ⟨_, objRev_cons M1 k1 v1 r1 hM1⟩
        obtain ⟨X1, hX1⟩ := hshape
        rw [hX1] at heq
        simp [dumpsMembers, sepConcat] at heq
        have hhead : ((dumps v1).reverse).head? = ('{' :: r2).head? :=
          heads_eq ((dumps v1).reverse) ('{' :: r2) X1 []
            (by simpa using heq) (by simp [dumps_ne_nil]) (by simp)
        obtain ⟨c, hc⟩ : ∃ c, ((dumps v1).reverse).head? = some c := by
          cases hrev : ((dumps v1).reverse) with
          | nil => exact absurd (List.reverse_eq_nil_iff.mp hrev) (dumps_ne_nil v1)
          | cons a t => exact ⟨a, by simp⟩
        have htag := tag_of_head v1 hw1 c hc
        rw [hc] at hhead
        simp at hhead
        subst hhead
        have := tag_le v1
        simp [charTag] at htag
        omega
      · subst h
        rw [List.concat_eq_append] at hc2 ⊢
        rw [List.concat_eq_append] at heq
        obtain ⟨k2, v2⟩ := kv2
        have hw2 : CanonV v2 := (canonO_iff _).mp hc2 (k2, v2) (by simp)
        by_cases hM1 : M1 = [] <;> by_cases hM2 : M2 = []
        · subst hM1
          subst hM2
          rw [objRev_nil, objRev_nil] at heq
          obtain ⟨hw, hr⟩ := hdet1 v2 _ _ hw1 hw2
            (good_cons ' ' _ (by decide) (by decide) (by decide))
            (good_cons ' ' _ (by decide) (by decide) (by decide)) heq
          simp only [List.cons.injEq, true_and] at hr
          obtain ⟨hk, hT⟩ := escRev_det k1.reverse k2.reverse _ _
            (by simp) (by simp) hr
          have hkk : k1 = k2 := List.reverse_injective hk
          simp at hT
          exact ⟨by rw [hkk, hw], hT⟩
        · exfalso
          subst hM1
          rw [objRev_nil, objRev_cons M2 k2 v2 r2 hM2] at heq
          obtain ⟨_, hr⟩ := hdet1 v2 _ _ hw1 hw2
            (good_cons ' ' _ (by decide) (by decide) (by decide))
            (good_cons ' ' _ (by decide) (by decide) (by decide)) heq
          simp only [List.cons.injEq, true_and] at hr
          obtain ⟨_, hT⟩ := escRev_det k1.reverse k2.reverse _ _
            (by simp) (by simp) hr
          simp at hT
        · exfalso
          subst hM2
          rw [objRev_cons M1 k1 v1 r1 hM1, objRev_nil] at heq
          obtain ⟨_, hr⟩ := hdet1 v2 _ _ hw1 hw2
            (good_cons ' ' _ (by decide) (by decide) (by decide))
            (good_cons ' ' _ (by decide) (by decide) (by decide)) heq
          simp only [List.cons.injEq, true_and] at hr
          obtain ⟨_, hT⟩ := escRev_det k1.reverse k2.reverse _ _
            (by simp) (by simp) hr
          simp at hT
        · rw [objRev_cons M1 k1 v1 r1 hM1, objRev_cons M2 k2 v2 r2 hM2] at heq
          obtain ⟨hw, hr⟩ := hdet1 v2 _ _ hw1 hw2
            (good_cons ' ' _ (by decide) (by decide) (by decide))
            (good_cons ' ' _ (by decide) (by decide) (by decide)) heq
          simp only [List.cons.injEq, true_and] at hr
          obtain ⟨hk, hT⟩ := escRev_det k1.reverse k2.reverse _ _
            (by simp) (by simp) hr
          have hkk : k1 = k2 := List.reverse_injective hk
          simp only [List.cons.injEq, true_and] at hT
          obtain ⟨hM, hrr⟩ := ih (fun kv hkv => hdet kv (by simp [hkv]))
            M2 r1 r2
            ((canonO_iff _).mpr (fun kv hkv =>
              (canonO_iff _).mp hc1 kv (by simp [hkv])))
            ((canonO_iff _).mpr (fun kv hkv =>
              (canonO_iff _).mp hc2 kv (by simp [hkv])))
            hT
          exact ⟨by rw [hM, hkk, hw], hrr⟩

/-- Reversed shape of a serialized array. -/
theorem arr_rev_shape (vs : List JVal) (r : List Char) :
    (dumps (.arr vs)).reverse ++ r
      = ']' :: ((sepConcat [',', ' '] (dumpsList vs)).reverse ++ '[' :: r) := by
  simp [dumps]

/-- Reversed shape of a serialized object. -/
theorem obj_rev_shape (kvs : List (List Char × JVal)) (r : List Char) :
    (dumps (.obj kvs)).reverse ++ r
      = '}' :: ((sepConcat [',', ' '] (dumpsMembers kvs)).reverse ++ '{' :: r) := by
  simp [dumps]

/-- Right-determinism of every canonical value: a reversed serialization
followed by a Good context determines the value and the context. -/
theorem rdumps_det : ∀ (N : Nat) (v1 : JVal), sizeOf v1 ≤ N → DetV v1 := by
  intro N
  induction N with
  | zero =>
      intro v1 h
      exfalso
      cases v1 <;> simp at h
  | succ N ihN =>
      intro v1 hsize v2 r1 r2 hc1 hc2 hg1 hg2 heq
      obtain ⟨c, hchead⟩ : ∃ c, ((dumps v1).reverse).head? = some c := by
        cases hrev : (dumps v1).reverse with
        | nil => exact absurd (List.reverse_eq_nil_iff.mp hrev) (dumps_ne_nil v1)
        | cons a t => exact ⟨a, rfl⟩
      have hhead2 : ((dumps v1).reverse).head? = ((dumps v2).reverse).head? :=
        heads_eq _ _ r1 r2 heq (by simp [dumps_ne_nil]) (by simp [dumps_ne_nil])
      have htag : tag v1 = tag v2 := by
        rw [← tag_of_head v1 hc1 c hchead,
            ← tag_of_head v2 hc2 c (hhead2 ▸ hchead)]
      clear hchead hhead2
      cases v1 with
      | null =>
          cases v2 <;> simp [tag] at htag
          simp [dumps, nullChars] at heq
          exact ⟨rfl, heq⟩
      | bool b1 =>
          cases v2 with
          | bool b2 =>
              cases b1 <;> cases b2 <;> simp [dumps, boolChars] at heq <;>
                exact ⟨rfl, heq⟩
          | _ => simp [tag] at htag
      | int n1 =>
          cases v2 with
          | int n2 =>
              simp only [dumps] at heq
              obtain ⟨hmn, hr⟩ := revInt_det n1 n2 r1 r2 hg1 hg2 heq
              exact ⟨by rw [hmn], hr⟩
          | _ => simp [tag] at htag
      | str s1 =>
          cases v2 with
          | str s2 =>
              simp only [dumps] at heq
              rw [strLit_reverse, strLit_reverse] at heq
              simp only [List.cons_append, List.append_assoc,
                List.singleton_append, List.cons.injEq, true_and] at heq
              have h1 : r1.head? ≠ some '\\' := fun hh => (hg1 _ hh).1 rfl
              have h2 : r2.head? ≠ some '\\' := fun hh => (hg2 _ hh).1 rfl
              obtain ⟨hs, hr⟩ := escRev_det s1.reverse s2.reverse r1 r2 h1 h2 heq
              exact ⟨by rw [List.reverse_injective hs], hr⟩
          | _ => simp [tag] at htag
      | float q1 => exact absurd hc1 (by simp [CanonV])
      | arr vs1 =>
          cases v2 with
          | arr vs2 =>
              rw [arr_rev_shape, arr_rev_shape] at heq
              simp only [List.cons.injEq, true_and] at heq
              simp only [CanonV] at hc1 hc2
              have hdet : ∀ w ∈ vs1, DetV w := by
                intro w hw
                apply ihN
                have h1 := List.sizeOf_lt_of_mem hw
                simp at hsize
                omega
              obtain ⟨hvs, hr⟩ := sepArr_det vs1 hdet vs2 r1 r2 hc1 hc2 heq
              exact ⟨by rw [hvs], hr⟩
          | _ => simp [tag] at htag
      | obj kvs1 =>
          cases v2 with
          | obj kvs2 =>
              rw [obj_rev_shape, obj_rev_shape] at heq
              simp only [List.cons.injEq, true_and] at heq
              simp only [CanonV] at hc1 hc2
              have hdet : ∀ kv ∈ kvs1, DetV kv.2 := by
                intro kv hkv
                apply ihN
                have h1 := List.sizeOf_lt_of_mem hkv
                obtain ⟨k, v⟩ := kv
                simp at h1 hsize ⊢
                omega
              obtain ⟨hvs, hr⟩ := sepObj_det kvs1 hdet kvs2 r1 r2 hc1.2 hc2.2 heq
              exact ⟨by rw [hvs], hr⟩
          | _ => simp [tag] at htag

/-! ## Claim C7, part 5: argument lookups, permutations and sorting -/

/-- Lookup in the empty mapping. -/
theorem alookup_nil (k : List Char) : alookup k [] = none := rfl

/-- Lookup of the head key. -/
theorem alookup_cons_self (k : List Char) (v : JVal) (l : KwArgs) :
    alookup k ((k, v) :: l) = some v := by
  simp [alookup, List.find?_cons_of_pos]

/-- Lookup past a non-matching head. -/
theorem alookup_cons_ne (k k2 : List Char) (v : JVal) (l : KwArgs)
    (h : k2 ≠ k) : alookup k ((k2, v) :: l) = alookup k l := by
  simp [alookup, List.find?_cons_of_neg, h]

/-- Lookup misses when no entry binds the key. -/
theorem alookup_eq_none (k : List Char) (l : KwArgs)
    (h : ∀ p ∈ l, p.1 ≠ k) : alookup k l = none := by
  unfold alookup
  rw [List.find?_eq_none.mpr]
  · rfl
  · intro p hp
    simpa using h p hp

/-- Key distinctness survives dropping the head entry. -/
theorem nodupKeys_tail {x : List Char × JVal} {l : KwArgs}
    (h : NodupKeys (x :: l)) : NodupKeys l := by
  unfold NodupKeys keysOf at h ⊢
  simp only [List.map_cons, List.nodup_cons] at h
  exact h.2

/-- Key distinctness is invariant under permutation. -/
theorem nodupKeys_of_perm {l1 l2 : KwArgs} (hp : l1.Perm l2)
    (h : NodupKeys l1) : NodupKeys l2 := by
  unfold NodupKeys keysOf at h ⊢
  exact (hp.map (fun p => p.1)).nodup_iff.mp h

/-- On mappings without duplicate keys, lookup is invariant under
permutation of the entries. -/
theorem alookup_perm {l1 l2 : KwArgs} (hp : l1.Perm l2) :
    NodupKeys l1 → ∀ k, alookup k l1 = alookup k l2 := by
  induction hp with
  | nil => intro _ k; rfl
  | cons x hp ih =>
      intro hnd k
      obtain ⟨x1, x2⟩ := x
      by_cases hx : x1 = k
      · subst hx
        rw [alookup_cons_self, alookup_cons_self]
      · rw [alookup_cons_ne _ _ _ _ hx, alookup_cons_ne _ _ _ _ hx]
        exact ih (nodupKeys_tail hnd) k
  | swap x y l =>
      intro hnd k
      obtain ⟨x1, x2⟩ := x
      obtain ⟨y1, y2⟩ := y
      have hxy : y1 ≠ x1 := by
        unfold NodupKeys keysOf at hnd
        simp only [List.map_cons, List.nodup_cons, List.mem_cons] at hnd
        exact fun h => hnd.1 (Or.inl h)
      by_cases hy : y1 = k
      · subst hy
        rw [alookup_cons_self, alookup_cons_ne _ _ _ _ hxy.symm,
            alookup_cons_self]
      · rw [alookup_cons_ne _ _ _ _ hy]
        by_cases hx : x1 = k
        · subst hx
          rw [alookup_cons_self, alookup_cons_self]
        · rw [alookup_cons_ne _ _ _ _ hx, alookup_cons_ne _ _ _ _ hx,
              alookup_cons_ne _ _ _ _ hy]
  | trans h1 h2 ih1 ih2 =>
      intro hnd k
      rw [ih1 hnd k, ih2 (nodupKeys_of_perm h1 hnd) k]

/-- Sorting is a permutation of the supplied arguments. -/
theorem perm_sortArgs (a : KwArgs) : (sortArgs a).Perm a := by
  unfold sortArgs
  exact List.perm_insertionSort _ a

/-- Sorted arguments are weakly ordered by key. -/
theorem sortArgs_sorted (a : KwArgs) : List.Pairwise keyLe (sortArgs a) := by
  have h : List.Sorted keyLe (List.insertionSort keyLe a) :=
    List.sorted_insertionSort keyLe a
  have he : sortArgs a = List.insertionSort keyLe a := rfl
  rw [he]
  exact h

/-- Sorted arguments with distinct keys are strictly ordered by key. -/
theorem sortArgs_pairwise_lt (a : KwArgs) (h : NodupKeys a) :
    List.Pairwise keyLt (sortArgs a) := by
  have hle := sortArgs_sorted a
  have hnd : NodupKeys (sortArgs a) := nodupKeys_of_perm (perm_sortArgs a).symm h
  unfold NodupKeys keysOf at hnd
  rw [List.Nodup, List.pairwise_map] at hnd
  exact (hle.and hnd).imp (fun h => lt_of_le_of_ne h.1 h.2)

/-- Canonicity of values survives sorting. -/
theorem canonO_sortArgs (a : KwArgs) (h : ∀ p ∈ a, CanonV p.2) :
    CanonO (sortArgs a) :=
  (canonO_iff _).mpr (fun kv hkv => h kv ((perm_sortArgs a).mem_iff.mp hkv))

/-- Strictly key-sorted mappings with the same lookups are equal. -/
theorem sorted_eq_of_alookup_eq :
    ∀ (l1 l2 : KwArgs), List.Pairwise keyLt l1 → List.Pairwise keyLt l2 →
      (∀ k, alookup k l1 = alookup k l2) → l1 = l2 := by
  intro l1
  induction l1 with
  | nil =>
      intro l2 _ _ hk
      cases l2 with
      | nil => rfl
      | cons q t2 =>
          exfalso
          obtain ⟨k2, v2⟩ := q
          have h := hk k2
          rw [alookup_cons_self] at h
          simp [alookup] at h
  | cons p t1 ih =>
      intro l2 hp1 hp2 hk
      obtain ⟨k1, v1⟩ := p
      cases l2 with
      | nil =>
          exfalso
          have h := hk k1
          rw [alookup_cons_self] at h
          simp [alookup] at h
      | cons q t2 =>
          obtain ⟨k2, v2⟩ := q
          rcases lt_trichotomy k1 k2 with hlt | heq | hgt
          · exfalso
            have h := hk k1
            rw [alookup_cons_self,
                alookup_cons_ne _ _ _ _ (ne_of_gt hlt),
                alookup_eq_none k1 t2 ?_] at h
            · simp at h
            · intro r hr
              have hrk : k2 < r.1 := (List.pairwise_cons.mp hp2).1 r hr
              exact ne_of_gt (lt_trans hlt hrk)
          · subst heq
            have hv : v1 = v2 := by
              have h := hk k1
              rw [alookup_cons_self, alookup_cons_self] at h
              injection h
            subst hv
            have ht : ∀ k, alookup k t1 = alookup k t2 := by
              intro k
              by_cases hkk : k1 = k
              · subst hkk
                rw [alookup_eq_none k1 t1 ?_, alookup_eq_none k1 t2 ?_]
                · intro r hr
                  have hrk : k1 < r.1 := (List.pairwise_cons.mp hp2).1 r hr
                  exact ne_of_gt hrk
                · intro r hr
                  have hrk : k1 < r.1 := (List.pairwise_cons.mp hp1).1 r hr
                  exact ne_of_gt hrk
              · have h := hk k
                rw [alookup_cons_ne _ _ _ _ hkk,
                    alookup_cons_ne _ _ _ _ hkk] at h
                exact h
            rw [ih t2 (List.pairwise_cons.mp hp1).2
                  (List.pairwise_cons.mp hp2).2 ht]
          · exfalso
            have h := hk k2
            rw [alookup_cons_self,
                alookup_cons_ne _ _ _ _ (ne_of_gt hgt),
                alookup_eq_none k2 t1 ?_] at h
            · simp at h
            · intro r hr
              have hrk : k1 < r.1 := (List.pairwise_cons.mp hp1).1 r hr
              exact ne_of_gt (lt_trans hgt hrk)

/-- C7: the cache key f-string "{tool_name}:{json.dumps(kwargs,
sort_keys=True)}" is a deterministic function of the tool name and the
canonical key-sorted serialization of the arguments, and for any two
tool calls whose argument mappings bind each name once to a canonical
value, the cache keys are equal if and only if the tool names are equal
and the argument mappings bind exactly the same values to the same
names, regardless of the order in which the argument keys were
supplied. -/
theorem c7_cache_key_iff (n1 n2 : List Char) (a1 a2 : KwArgs)
    (hn1 : NodupKeys a1) (hn2 : NodupKeys a2)
    (hcv1 : ∀ p ∈ a1, CanonV p.2) (hcv2 : ∀ p ∈ a2, CanonV p.2) :
    cacheKeyChars n1 a1 = cacheKeyChars n2 a2 ↔
      (n1 = n2 ∧ ∀ k, alookup k a1 = alookup k a2) := by
  have hcan1 : CanonV (.obj (sortArgs a1)) := by
    simp only [CanonV]
    exact ⟨sortArgs_pairwise_lt a1 hn1, canonO_sortArgs a1 hcv1⟩
  have hcan2 : CanonV (.obj (sortArgs a2)) := by
    simp only [CanonV]
    exact ⟨sortArgs_pairwise_lt a2 hn2, canonO_sortArgs a2 hcv2⟩
  constructor
  · intro hkey
    have hrev := congrArg List.reverse hkey
    simp only [cacheKeyChars, dumpsArgs, List.reverse_append,
      List.reverse_cons, List.append_assoc, List.singleton_append] at hrev
    obtain ⟨hobj, hctx⟩ := rdumps_det (sizeOf (JVal.obj (sortArgs a1))) _
      le_rfl (.obj (sortArgs a2)) (':' :: n1.reverse) (':' :: n2.reverse)
      hcan1 hcan2
      (good_cons ':' _ (by decide) (by decide) (by decide))
      (good_cons ':' _ (by decide) (by decide) (by decide))
      hrev
    injection hobj with hobj
    have hn : n1 = n2 := by
      simp only [List.cons.injEq, true_and] at hctx
      exact List.reverse_injective hctx
    refine ⟨hn, fun k => ?_⟩
    rw [alookup_perm (perm_sortArgs a1).symm hn1 k, hobj,
        alookup_perm (perm_sortArgs a2)
          (nodupKeys_of_perm (perm_sortArgs a2).symm hn2) k]
  · rintro ⟨rfl, hk⟩
    have hs : sortArgs a1 = sortArgs a2 := by
      apply sorted_eq_of_alookup_eq _ _ (sortArgs_pairwise_lt a1 hn1)
        (sortArgs_pairwise_lt a2 hn2)
      intro k
      rw [alookup_perm (perm_sortArgs a1)
            (nodupKeys_of_perm (perm_sortArgs a1).symm hn1) k,
          alookup_perm (perm_sortArgs a2)
            (nodupKeys_of_perm (perm_sortArgs a2).symm hn2) k]
      exact hk k
    simp [cacheKeyChars, dumpsArgs, hs]

/-- Witness for C7 at a concrete pair of calls: the same two arguments
supplied in opposite orders have equal lookups, and the theorem yields
equal cache keys. -/
theorem c7_cache_key_iff_witness :
    (∀ k, alookup k [(['u'], JVal.str ['S', 'I']), (['c'], JVal.int 7)]
        = alookup k [(['c'], JVal.int 7), (['u'], JVal.str ['S', 'I'])]) ∧
    cacheKeyChars ['w'] [(['u'], JVal.str ['S', 'I']), (['c'], JVal.int 7)]
      = cacheKeyChars ['w'] [(['c'], JVal.int 7), (['u'], JVal.str ['S', 'I'])] := by
  have hk : ∀ k, alookup k [(['u'], JVal.str ['S', 'I']), (['c'], JVal.int 7)]
      = alookup k [(['c'], JVal.int 7), (['u'], JVal.str ['S', 'I'])] := by
    intro k
    by_cases h1 : (['u'] : List Char) = k
    · subst h1
      decide
    · by_cases h2 : (['c'] : List Char) = k
      · subst h2
        decide
      · have e1 : ((['u'] : List Char) == k) = false := by
          simpa using h1
        have e2 : ((['c'] : List Char) == k) = false := by
          simpa using h2
        simp [alookup, List.find?, e1, e2]
  refine ⟨hk, ?_⟩
  exact (c7_cache_key_iff ['w'] ['w'] _ _
    (by unfold NodupKeys keysOf; decide) (by unfold NodupKeys keysOf; decide)
    (by intro p hp; simp at hp; rcases hp with rfl | rfl <;> trivial)
    (by intro p hp; simp at hp; rcases hp with rfl | rfl <;> trivial)).mpr
    ⟨rfl, hk⟩

end AQA
